import Mathlib

/-!
# dcsdchk: `write` (pregap and null-data generator) and `read` (hex dump)

A shallow embedding of `src/write.c` and `src/read.c`.

Modelling conventions.

* A C `double` is a rational (`ℚ`).  The programs only add `1` to a double,
  add `size + skip`, and compare doubles.  `round_double` is the rounding of
  a sum to a double; below `2 ^ 53` the sums of integers are exact, and the
  functions written with exact sums are the code there.
* A byte (`unsigned char`) is a natural number below `256`; a store into an
  `unsigned char` is an explicit `% 256`.
* A conversion from `double` to an integer type truncates toward zero.  To
  `size_t` and `long` it is undefined when the truncated value does not fit
  the type (C11 6.3.1.4); to `unsigned char` the program as built keeps the
  low eight bits.
* The loop counters are `int` (32 bits): incrementing `INT_MAX` is undefined.
  `long` and `size_t` have 64 bits, and `EXIT_FAILURE` is `1`.
* The file system is a map from paths to contents.  Whether `fopen`
  succeeds and how much memory `calloc` can hand out are fields of the world.
* A run ends by returning, by `exit`, or in undefined behaviour.
* Integer division and remainder in the statements (`/`, `%` on `ℤ`) round
  toward minus infinity; on the natural numbers they are the usual ones.
-/

namespace Dcsdchk

/-- The state a program run acts on. -/
structure World where
  /-- Content of every existing file. -/
  files : String → Option (List Nat)
  /-- Whether `fopen` on the path succeeds (permissions, directories). -/
  openable : String → Bool
  /-- The largest block `calloc` can allocate. -/
  heap : Nat
  /-- Characters printed on the standard output. -/
  stdout : List Char
  /-- Characters printed on the standard error. -/
  stderr : List Char

/-- How a call ends: it returns a value, the process exits with a status, or
the behaviour is undefined. -/
inductive Result where
  | returned (w : World) (value : Int)
  | exited (w : World) (status : Nat)
  | undefined

/-- World a run ended in, when it has one. -/
def Result.world : Result → Option World
  | .returned w _ => some w
  | .exited w _ => some w
  | .undefined => none

/-- Exit status of a run that called `exit`. -/
def Result.status : Result → Option Nat
  | .exited _ s => some s
  | _ => none

/-- Value of a run that returned. -/
def Result.value : Result → Option Int
  | .returned _ v => some v
  | _ => none

/-- Standard output at the end of a run. -/
def Result.stdout (r : Result) : Option (List Char) := r.world.map World.stdout

/-- Content of the file at `path` at the end of a run. -/
def Result.sink (r : Result) (path : String) : Option (List Nat) :=
  match r.world with
  | none => none
  | some w => w.files path

def EXIT_FAILURE : Nat := 1

def INT_MAX : Nat := 2147483647

/-- Truncation toward zero of a double. -/
def trunc (x : ℚ) : Int := if 0 ≤ x then ⌊x⌋ else ⌈x⌉

/-- Conversion `double → unsigned char`: truncation toward zero, then the
narrowing modulo 256 of the program as built and of the specification
(256 gives 0).  Inside `(-1, 256)` it is the truncated value itself. -/
def to_uchar (x : ℚ) : Option Nat :=
  some (trunc x % 256).toNat

/-- Rounding of a rational to the nearest integer, ties to the even one. -/
def round_even (q : ℚ) : ℤ :=
  if q - ⌊q⌋ < 1 / 2 then ⌊q⌋
  else if 1 / 2 < q - ⌊q⌋ then ⌊q⌋ + 1
  else if ⌊q⌋ % 2 = 0 then ⌊q⌋ else ⌊q⌋ + 1

/-- Rounding of an exact result to a double: the nearest value with a
significand of 53 bits, ties to even (IEEE 754 binary64, the exponent range
taken as unbounded). -/
def round_double (x : ℚ) : ℚ :=
  if x = 0 then 0
  else (round_even (x / 2 ^ (Int.log 2 |x| - 52)) : ℚ) * 2 ^ (Int.log 2 |x| - 52)

/-- Conversion `double → size_t` (64 bits); undefined outside `(-1, 2 ^ 64)`. -/
def to_size_t (x : ℚ) : Option Nat :=
  if -1 < x ∧ x < 2 ^ 64 then some (trunc x).toNat else none

/-- Conversion `double → long` (64 bits); undefined outside
`(-2 ^ 63 - 1, 2 ^ 63)`. -/
def to_long (x : ℚ) : Option Int :=
  if -(2 ^ 63) - 1 < x ∧ x < 2 ^ 63 then some (trunc x) else none

/-- The world in which the file at `path` holds `content`. -/
def World.store (w : World) (path : String) (content : List Nat) : World :=
  { w with files := fun p => if p = path then some content else w.files p }

/-- The effect of `fopen (path, "wb")`: the file exists and is empty. -/
def fopen_wb (w : World) (path : String) : Option World :=
  if w.openable path then some (w.store path []) else none

/-- The effect of `fopen (path, "ab")`: the file exists, its content is kept. -/
def fopen_ab (w : World) (path : String) : Option World :=
  if w.openable path then some (w.store path ((w.files path).getD [])) else none

/-- The effect of `fopen (path, "rb")`: the content of the file, when it
exists and can be opened. -/
def fopen_rb (w : World) (path : String) : Option (List Nat) :=
  if w.openable path then w.files path else none

/-- The effect of `fwrite` on a stream positioned at the end of the file,
which is where the streams of `write.c` always are. -/
def fwrite (w : World) (path : String) (bytes : List Nat) : World :=
  w.store path ((w.files path).getD [] ++ bytes)

/-- Result of `calloc (n, 1)`: a zeroed block of `n` bytes, or `NULL` when
the heap cannot hold it.  A request for zero bytes succeeds, as in glibc. -/
def calloc (w : World) (n : Nat) : Option (List Nat) :=
  if n ≤ w.heap then some (List.replicate n 0) else none

/-- A world without files, in which every path can be opened and 2 GiB can
be allocated. -/
def blank : World :=
  { files := fun _ => none, openable := fun _ => true, heap := 2147483648,
    stdout := [], stderr := [] }

namespace Write

/-- The loop `for (int i = 0 ; i < size ; i++) { null[i] = 0 ; }` of
`write_null`, from counter value `i` on.  A store outside the block and the
increment of `INT_MAX` are undefined (`none`).  The first argument bounds the
number of iterations; `INT_MAX + 1` is never used up. -/
def null_loop (size : ℚ) : Nat → Nat → List Nat → Option (List Nat)
  | 0, _, _ => none
  | fuel + 1, i, null =>
    if (i : ℚ) < size then
      if i < null.length then
        if i < INT_MAX then null_loop size fuel (i + 1) (null.set i 0) else none
      else none
    else some null

/-- The indices `i` of the stores `null[i] = 0` that the loop of `write_null`
(line 37) performs, in order, from counter value `i` on; it ends when
`i < size` fails or when the counter cannot be incremented. -/
def null_loop_stores (size : ℚ) : Nat → Nat → List Nat
  | 0, _ => []
  | fuel + 1, i =>
    if (i : ℚ) < size then
      i :: (if i < INT_MAX then null_loop_stores size fuel (i + 1) else [])
    else []

/-- Source: `write_null` (write.c, lines 29-47). -/
def write_null (w : World) (path : String) (size : ℚ) : Result :=
  match fopen_wb w path with
  | none => .exited w EXIT_FAILURE
  | some w1 =>
    match to_size_t size with
    | none => .undefined
    | some n =>
      match calloc w1 n with
      | none => .exited w1 EXIT_FAILURE
      | some null =>
        match null_loop size (INT_MAX + 1) 0 null with
        | none => .undefined
        | some null1 => .returned (fwrite w1 path (null1.take n)) 0

/-- The array `sync` of `write_sector`. -/
def sync : List Nat := [0, 255, 255, 255, 255, 255, 255, 255, 255, 255, 255, 0]

/-- The timecode byte of `write_sector` (lines 61, 63, 65):
`((unsigned char) x / 10) * 16 + ((unsigned char) x % 10)`, computed in `int`
and stored in an `unsigned char`. -/
def bcd_byte (x : ℚ) : Option Nat :=
  match to_uchar x with
  | none => none
  | some c => some (((c / 10) * 16 + c % 10) % 256)

/-- Source: `write_sector` (write.c, lines 49-82). -/
def write_sector (w : World) (path : String) (bcd_min bcd_sec bcd_fra : ℚ) : Result :=
  match fopen_ab w path with
  | none => .exited w EXIT_FAILURE
  | some w0 =>
    let w1 := fwrite w0 path sync
    match bcd_byte bcd_min with
    | none => .undefined
    | some min =>
      let w2 := fwrite w1 path [min]
      match bcd_byte bcd_sec with
      | none => .undefined
      | some sec =>
        let w3 := fwrite w2 path [sec]
        match bcd_byte bcd_fra with
        | none => .undefined
        | some fra =>
          let w4 := fwrite w3 path [fra]
          let mode := 1
          let w5 := fwrite w4 path [mode]
          let data := List.replicate 2336 0
          .returned (fwrite w5 path data) 0

/-- The timecode update at the end of the loop body of `write_pregap`
(lines 96-99), on `(bcd_min, bcd_sec, bcd_fra)`, every sum rounded to a
double as the code computes it. -/
def advance_double (t : ℚ × ℚ × ℚ) : ℚ × ℚ × ℚ :=
  let bcd_min := t.1
  let bcd_sec := t.2.1
  let bcd_fra := t.2.2
  let bcd_fra := round_double (bcd_fra + 1)
  let (bcd_fra, bcd_sec) :=
    if bcd_fra > 74 then (0, round_double (bcd_sec + 1)) else (bcd_fra, bcd_sec)
  let (bcd_sec, bcd_min) :=
    if bcd_sec > 59 then (0, round_double (bcd_min + 1)) else (bcd_sec, bcd_min)
  (bcd_min, bcd_sec, bcd_fra)

/-- The timecode update at the end of the loop body of `write_pregap`
(lines 96-99), on `(bcd_min, bcd_sec, bcd_fra)`, with exact sums.  It is the
update of the code, `advance_double`, as long as the sums are exact in double
arithmetic, which they are on integers of magnitude below `2 ^ 53`. -/
def advance (t : ℚ × ℚ × ℚ) : ℚ × ℚ × ℚ :=
  let bcd_min := t.1
  let bcd_sec := t.2.1
  let bcd_fra := t.2.2
  let bcd_fra := bcd_fra + 1
  let (bcd_fra, bcd_sec) := if bcd_fra > 74 then (0, bcd_sec + 1) else (bcd_fra, bcd_sec)
  let (bcd_sec, bcd_min) := if bcd_sec > 59 then (0, bcd_min + 1) else (bcd_sec, bcd_min)
  (bcd_min, bcd_sec, bcd_fra)

/-- The loop `for (int i = 0 ; i < 150 ; i++)` of `write_pregap`, with `n`
iterations left. -/
def pregap_loop (path : String) : Nat → World → ℚ × ℚ × ℚ → Result
  | 0, w, _ => .returned w 0
  | n + 1, w, t =>
    match write_sector w path t.1 t.2.1 t.2.2 with
    | .returned w1 _ => pregap_loop path n w1 (advance t)
    | r => r

/-- Source: `write_pregap` (write.c, lines 84-103). -/
def write_pregap (w : World) (path : String) (bcd_min bcd_sec bcd_fra : ℚ) : Result :=
  match write_null w path 176400 with
  | .returned w1 _ => pregap_loop path 150 w1 (bcd_min, bcd_sec, bcd_fra)
  | r => r

/-! ### Closed forms used to state the properties -/

/-- The record `write_sector` appends for the three timecode bytes. -/
def sector (min sec fra : Nat) : List Nat :=
  sync ++ [min] ++ [sec] ++ [fra] ++ [1] ++ List.replicate 2336 0

/-- The timecode that is `T` frames after `(0, 0, 0)`, as doubles. -/
def timecode (T : ℤ) : ℚ × ℚ × ℚ :=
  (((T / 4500 : ℤ) : ℚ), ((T / 75 % 60 : ℤ) : ℚ), ((T % 75 : ℤ) : ℚ))

/-- The function `advance` as the specification words it, on integers:
increment the frame; if the frame exceeds 74, reset it to 0 and increment the
second; if the second exceeds 59, reset it to 0 and increment the minute. -/
def advance_spec (t : ℤ × ℤ × ℤ) : ℤ × ℤ × ℤ :=
  let f1 := t.2.2 + 1
  let s1 := if f1 > 74 then t.2.1 + 1 else t.2.1
  let f2 := if f1 > 74 then 0 else f1
  let m1 := if s1 > 59 then t.1 + 1 else t.1
  let s2 := if s1 > 59 then 0 else s1
  (m1, s2, f2)

/-- The record `write_sector` appends for a timecode whose three bytes are
defined. -/
def sector_at (t : ℚ × ℚ × ℚ) : List Nat :=
  sector ((bcd_byte t.1).getD 0) ((bcd_byte t.2.1).getD 0) ((bcd_byte t.2.2).getD 0)

/-- The three conversions to `unsigned char` of `write_sector` are defined. -/
def Encodable (t : ℚ × ℚ × ℚ) : Prop :=
  (bcd_byte t.1).isSome ∧ (bcd_byte t.2.1).isSome ∧ (bcd_byte t.2.2).isSome

/-- Source: `show_usage` (write.c, lines 105-119). -/
def show_usage (w : World) : World :=
  { w with stderr := w.stderr
      ++ "write [mode] [path] (optional) [mm] [ss] [ff] [size]\n\n".toList
      ++ "[mode]     -a : audio track pregap\n".toList
      ++ "                requires path\n".toList
      ++ "           -d : data track pregap\n".toList
      ++ "                requires path and timing\n".toList
      ++ "           -n : null data\n".toList
      ++ "                requires path and size\n\n".toList
      ++ "[path]     absolute or relative path to output file\n".toList }

/-- Result of `strtod (argv[k], NULL)`.  `argv[argc]` is the null pointer and
the entries after it are outside the array: parsing them is undefined. -/
def arg (strtod : String → ℚ) (argv : List String) (k : Nat) : Option ℚ :=
  match argv[k]? with
  | none => none
  | some s => some (strtod s)

/-- Source: `main` (write.c, lines 121-156).  The list `argv` holds
`argv[0] .. argv[argc - 1]`; `strtod` is the parser of the C library. -/
def main (strtod : String → ℚ) (w : World) (argv : List String) : Result :=
  if argv.length < 3 then .exited (show_usage w) 1
  else
    match argv[1]?, argv[2]? with
    | some mode, some path =>
      if mode = "-a" then
        match write_null w path 352800 with
        | .returned w1 _ => .returned w1 0
        | r => r
      else if mode = "-d" then
        match arg strtod argv 3, arg strtod argv 4, arg strtod argv 5 with
        | some bcd_min, some bcd_sec, some bcd_fra =>
          match write_pregap w path bcd_min bcd_sec bcd_fra with
          | .returned w1 _ => .returned w1 0
          | r => r
        | _, _, _ => .undefined
      else if mode = "-n" then
        match arg strtod argv 3 with
        | some size =>
          match write_null w path size with
          | .returned w1 _ => .returned w1 0
          | r => r
        | none => .undefined
      else .returned w 0
    | _, _ => .undefined

end Write

namespace Read

/-- Output of `printf ("%x", byte)`: lowercase hexadecimal, no padding. -/
def printf_x (byte : Nat) : List Char := Nat.toDigits 16 byte

/-- The loop `for (int i = 0 ; i < size ; i++)` of `read_hex`, from counter
value `i` on, the stream being at offset `pos` of `content`; `out` is the
standard output so far.  `fread` at the end of the file leaves `byte` as it
is.  The increment of `INT_MAX` is undefined (`none`).  The first argument
bounds the number of iterations; `INT_MAX + 1` is never used up. -/
def hex_loop (size : ℚ) (content : List Nat) :
    Nat → Nat → Nat → Nat → List Char → Option (List Char)
  | 0, _, _, _, _ => none
  | fuel + 1, i, pos, byte, out =>
    if (i : ℚ) < size then
      let byte := (content[pos]?).getD byte
      let pos := if pos < content.length then pos + 1 else pos
      let out :=
        if byte < 16 then out ++ ['0'] ++ printf_x byte ++ [' ']
        else out ++ printf_x byte ++ [' ']
      if i < INT_MAX then hex_loop size content fuel (i + 1) pos byte out else none
    else some out

/-- The test `file_size < size + skip` of `read_hex` (line 36) as the code
computes it: the file size converted to a double, the sum rounded to a
double. -/
def range_test_double (file_size : Int) (size skip : ℚ) : Bool :=
  decide (round_double file_size < round_double (size + skip))

/-- Source: `read_hex` (read.c, lines 28-61).  `fseek` with a negative offset
fails and leaves the stream at the end of the file, where the first `fseek`
put it.  The test of line 36 is taken with the exact sum; it is the test of
the code, `range_test_double`, as long as the file is shorter than `2 ^ 53`
bytes and `size` and `skip` are non-negative integers. -/
def read_hex (w : World) (path : String) (size skip : ℚ) : Result :=
  match fopen_rb w path with
  | none => .exited w EXIT_FAILURE
  | some content =>
    let file_size : Int := content.length
    if (file_size : ℚ) < size + skip then
      .exited { w with stderr := w.stderr
                  ++ "size + skip value bigger than file size\n".toList } 2
    else
      match to_long skip with
      | none => .undefined
      | some offset =>
        let pos := if 0 ≤ offset then offset.toNat else content.length
        match hex_loop size content (INT_MAX + 1) 0 pos 0 w.stdout with
        | none => .undefined
        | some out => .returned { w with stdout := out ++ ['\n'] } 0

/-- Source: `show_usage` (read.c, lines 63-70). -/
def show_usage (w : World) : World :=
  { w with stderr := w.stderr
      ++ "read [path] [size] [skip]\n\n".toList
      ++ "[path]     absolute or relative path to input file\n".toList }

/-- Source: `main` (read.c, lines 72-84). -/
def main (strtod : String → ℚ) (w : World) (argv : List String) : Result :=
  if argv.length < 4 then .exited (show_usage w) 1
  else
    match argv[1]?, argv[2]?, argv[3]? with
    | some path, some a2, some a3 =>
      let size := strtod a2
      let skip := strtod a3
      match read_hex w path size skip with
      | .returned w1 _ => .returned w1 0
      | r => r
    | _, _, _ => .undefined

/-! ### Renderings used to state the properties -/

/-- The two-digit lowercase hexadecimal rendering of a byte. -/
def hex_pair (b : Nat) : List Char := [Nat.digitChar (b / 16), Nat.digitChar (b % 16)]

/-- The dump as the specification words it: the pairs separated by single
spaces, then a newline. -/
def hex_dump_separated (bytes : List Nat) : List Char :=
  List.intercalate [' '] (bytes.map hex_pair) ++ ['\n']

/-- The dump with every pair followed by a space, then a newline. -/
def hex_dump_terminated (bytes : List Nat) : List Char :=
  (bytes.flatMap fun b => hex_pair b ++ [' ']) ++ ['\n']

end Read

/-! ## Conversions, rounding and the file system -/

theorem trunc_natCast (n : ℕ) : trunc (n : ℚ) = (n : ℤ) := by
  simp [trunc]

theorem to_uchar_natCast (n : ℕ) (h : n < 256) : to_uchar (n : ℚ) = some n := by
  have h1 : ((n : ℤ) % 256).toNat = n := by omega
  simp [to_uchar, trunc_natCast, h1]

theorem to_size_t_natCast (n : ℕ) (h : n < 2 ^ 64) : to_size_t (n : ℚ) = some n := by
  have h1 : (-1 : ℚ) < (n : ℚ) := lt_of_lt_of_le (by norm_num) (Nat.cast_nonneg n)
  have h2 : (n : ℚ) < 2 ^ 64 := by exact_mod_cast h
  simp [to_size_t, h1, h2, trunc_natCast]

theorem store_files_self (w : World) (path : String) (c : List Nat) :
    (w.store path c).files path = some c := by
  simp [World.store]

theorem store_openable (w : World) (path : String) (c : List Nat) :
    (w.store path c).openable = w.openable := rfl

theorem store_heap (w : World) (path : String) (c : List Nat) :
    (w.store path c).heap = w.heap := rfl

theorem store_store (w : World) (path : String) (a b : List Nat) :
    (w.store path a).store path b = w.store path b := by
  simp only [World.store, World.mk.injEq, and_true]
  funext p
  by_cases h : p = path <;> simp [h]

theorem fwrite_store (w : World) (path : String) (a b : List Nat) :
    fwrite (w.store path a) path b = w.store path (a ++ b) := by
  simp [fwrite, store_files_self, store_store]

theorem fwrite_fwrite (w : World) (path : String) (a b : List Nat) :
    fwrite (fwrite w path a) path b = fwrite w path (a ++ b) := by
  simp [fwrite, store_files_self, store_store]

theorem fwrite_ab (w : World) (path : String) (a : List Nat) :
    fwrite (w.store path ((w.files path).getD [])) path a = fwrite w path a := by
  rw [fwrite_store]
  rfl

theorem fwrite_openable (w : World) (path : String) (a : List Nat) :
    (fwrite w path a).openable = w.openable := rfl

theorem to_long_natCast (n : ℕ) (h : n < 2 ^ 63) : to_long (n : ℚ) = some (n : ℤ) := by
  have h1 : -(2 ^ 63 : ℚ) - 1 < (n : ℚ) :=
    lt_of_lt_of_le (by norm_num) (Nat.cast_nonneg n)
  have h2 : (n : ℚ) < 2 ^ 63 := by exact_mod_cast h
  simp [to_long, h1, h2, trunc_natCast]

theorem round_even_intCast (z : ℤ) : round_even (z : ℚ) = z := by
  simp [round_even]

theorem log_two_eq (x : ℚ) (e : ℤ) (h1 : (2 : ℚ) ^ e ≤ x) (h2 : x < (2 : ℚ) ^ (e + 1)) :
    Int.log 2 x = e := by
  have hx : 0 < x := lt_of_lt_of_le (by positivity) h1
  apply le_antisymm
  · have := (Int.lt_zpow_iff_log_lt (b := 2) (by norm_num) hx (x := e + 1)).mp
      (by exact_mod_cast h2)
    omega
  · exact (Int.zpow_le_iff_le_log (b := 2) (by norm_num) hx).mp (by exact_mod_cast h1)

theorem round_double_intCast (n : ℤ) (h : |n| ≤ 2 ^ 53) : round_double (n : ℚ) = n := by
  by_cases h0 : n = 0
  · simp [round_double, h0]
  have hq0 : (n : ℚ) ≠ 0 := by exact_mod_cast h0
  have ha1 : (1 : ℚ) ≤ |(n : ℚ)| := by
    have : (1 : ℤ) ≤ |n| := Int.one_le_abs h0
    exact_mod_cast this
  have ha2 : |(n : ℚ)| ≤ 2 ^ 53 := by exact_mod_cast h
  have hpos : (0 : ℚ) < |(n : ℚ)| := lt_of_lt_of_le one_pos ha1
  have he0 : 0 ≤ Int.log 2 |(n : ℚ)| := by
    have := Int.log_mono_right (b := 2) one_pos ha1
    rwa [Int.log_one_right] at this
  have he1 : Int.log 2 |(n : ℚ)| ≤ 53 := by
    have := Int.log_mono_right (b := 2) hpos ha2
    have h53 : Int.log 2 ((2 : ℚ) ^ 53) = 53 := by
      have := Int.log_zpow (R := ℚ) (b := 2) (by norm_num) 53
      rw [show (((2 : ℕ) : ℚ)) ^ (53 : ℤ) = (2 : ℚ) ^ (53 : ℕ) by norm_num] at this
      exact this
    rwa [h53] at this
  simp only [round_double, hq0, if_false]
  generalize he : Int.log 2 |(n : ℚ)| = e at *
  by_cases hcase : e ≤ 52
  · obtain ⟨d, hd⟩ : ∃ d : ℕ, e - 52 = -(d : ℤ) := ⟨(52 - e).toNat, by omega⟩
    rw [hd, zpow_neg, zpow_natCast]
    have hint : (n : ℚ) / ((2 : ℚ) ^ d)⁻¹ = ((n * 2 ^ d : ℤ) : ℚ) := by
      push_cast
      field_simp
    rw [hint, round_even_intCast]
    push_cast
    field_simp
  · have he53 : e = 53 := by omega
    subst he53
    have hle : (2 : ℚ) ^ (53 : ℤ) ≤ |(n : ℚ)| := by
      have := Int.zpow_log_le_self (b := 2) (r := |(n : ℚ)|) (by norm_num) hpos
      rw [he] at this
      exact_mod_cast this
    have habs : |n| = 2 ^ 53 := by
      have h3 : (2 : ℚ) ^ 53 ≤ |(n : ℚ)| := by
        have e2 : (2 : ℚ) ^ (53 : ℤ) = 2 ^ 53 := by norm_num
        rwa [e2] at hle
      have h4 : ((2 ^ 53 : ℤ) : ℚ) ≤ ((|n| : ℤ) : ℚ) := by
        push_cast
        exact h3
      have h5 : (2 ^ 53 : ℤ) ≤ |n| := by exact_mod_cast h4
      omega
    have hhalf : ∃ z : ℤ, n = 2 * z := by
      rcases abs_eq (by norm_num : (0 : ℤ) ≤ 2 ^ 53) |>.mp habs with h6 | h6
      · exact ⟨2 ^ 52, by rw [h6]; norm_num⟩
      · exact ⟨-2 ^ 52, by rw [h6]; norm_num⟩
    obtain ⟨z, rfl⟩ := hhalf
    have hint : ((2 * z : ℤ) : ℚ) / (2 : ℚ) ^ ((53 : ℤ) - 52) = (z : ℚ) := by
      norm_num
    rw [hint, round_even_intCast]
    norm_num
    ring

theorem round_double_tie : round_double (2 ^ 53 + 1) = 2 ^ 53 := by
  have hlog : Int.log 2 |(2 ^ 53 + 1 : ℚ)| = 53 := by
    apply log_two_eq
    · rw [abs_of_pos (by norm_num)]
      norm_num
    · rw [abs_of_pos (by norm_num)]
      norm_num
  have hne : (2 ^ 53 + 1 : ℚ) ≠ 0 := by norm_num
  have hfl : ⌊((2 : ℚ) ^ 53 + 1) / 2⌋ = 2 ^ 52 := by
    rw [Int.floor_eq_iff]
    constructor <;> norm_num
  simp only [round_double, hne, if_false, hlog]
  have e1 : ((2 : ℚ) ^ 53 + 1) / 2 ^ ((53 : ℤ) - 52) = (2 ^ 53 + 1) / 2 := by norm_num
  rw [e1]
  have hr : round_even (((2 : ℚ) ^ 53 + 1) / 2) = 2 ^ 52 := by
    simp only [round_even, hfl]
    norm_num
  rw [hr]
  norm_num

theorem round_double_add_one (z : ℤ) (h : -2 ^ 53 ≤ z ∧ z < 2 ^ 53) :
    round_double ((z : ℚ) + 1) = (z : ℚ) + 1 := by
  have h1 := round_double_intCast (z + 1) (by rw [abs_le]; constructor <;> omega)
  push_cast at h1
  exact h1

theorem round_even_ge_floor (q : ℚ) : ⌊q⌋ ≤ round_even q := by
  unfold round_even
  split_ifs <;> omega

theorem round_double_ge (x : ℚ) (h : 2 ^ 53 ≤ x) : 2 ^ 53 ≤ round_double x := by
  have hx : 0 < x := lt_of_lt_of_le (by norm_num) h
  have hne : x ≠ 0 := ne_of_gt hx
  have habs : |x| = x := abs_of_pos hx
  have hlog : 53 ≤ Int.log 2 x := by
    apply (Int.zpow_le_iff_le_log (b := 2) (by norm_num) hx).mp
    norm_num
    exact h
  have hpow : (2 : ℚ) ^ Int.log 2 x ≤ x := by
    have := Int.zpow_log_le_self (b := 2) (r := x) (by norm_num) hx
    exact_mod_cast this
  simp only [round_double, hne, if_false, habs]
  generalize Int.log 2 x = e at *
  have hpos : (0 : ℚ) < 2 ^ (e - 52) := by positivity
  have h52 : ((2 ^ 52 : ℤ) : ℚ) ≤ x / 2 ^ (e - 52) := by
    rw [le_div_iff₀ hpos]
    have : ((2 ^ 52 : ℤ) : ℚ) * 2 ^ (e - 52) = 2 ^ e := by
      rw [zpow_sub₀ (by norm_num)]
      norm_num
      field_simp
    rw [this]
    exact hpow
  have hfl : (2 ^ 52 : ℤ) ≤ ⌊x / 2 ^ (e - 52)⌋ := Int.le_floor.mpr h52
  have hr : (2 ^ 52 : ℤ) ≤ round_even (x / 2 ^ (e - 52)) := le_trans hfl (round_even_ge_floor _)
  have hrq : ((2 ^ 52 : ℤ) : ℚ) ≤ (round_even (x / 2 ^ (e - 52)) : ℚ) := by exact_mod_cast hr
  have h1 : (2 : ℚ) ^ (1 : ℤ) ≤ 2 ^ (e - 52) := zpow_le_zpow_right₀ (by norm_num) (by omega)
  calc (2 : ℚ) ^ 53 = ((2 ^ 52 : ℤ) : ℚ) * 2 ^ (1 : ℤ) := by norm_num
    _ ≤ (round_even (x / 2 ^ (e - 52)) : ℚ) * 2 ^ (e - 52) :=
        mul_le_mul hrq h1 (by norm_num) (le_trans (by norm_num) hrq)

/-! ## Lemmas on `write.c` -/

namespace Write

theorem bcd_byte_natCast (v : ℕ) (h : v < 256) :
    bcd_byte (v : ℚ) = some ((v / 10 * 16 + v % 10) % 256) := by
  simp [bcd_byte, to_uchar_natCast v h]

theorem bcd_byte_decimal (v : ℕ) (h : v ≤ 99) :
    bcd_byte (v : ℚ) = some (v / 10 * 16 + v % 10) := by
  rw [bcd_byte_natCast v (by omega)]
  congr 1
  omega

theorem sector_length (a b c : Nat) : (sector a b c).length = 2352 := by
  simp only [sector, sync, List.length_append, List.length_replicate, List.length_cons,
    List.length_nil]

theorem write_sector_eq (w : World) (path : String) (x y z : ℚ) (a b c : Nat)
    (hopen : w.openable path = true)
    (ha : bcd_byte x = some a) (hb : bcd_byte y = some b) (hc : bcd_byte z = some c) :
    write_sector w path x y z
      = .returned (fwrite w path (sector a b c)) 0 := by
  simp only [write_sector, fopen_ab, hopen, if_true, ha, hb, hc, fwrite_ab, fwrite_fwrite,
    sector]

theorem null_loop_zeros (N : ℕ) (hN : N ≤ INT_MAX) (fuel i : ℕ) (hi : i ≤ N)
    (hfuel : N < fuel + i) :
    null_loop (N : ℚ) fuel i (List.replicate N 0) = some (List.replicate N 0) := by
  induction fuel generalizing i with
  | zero => omega
  | succ fuel ih =>
    rw [null_loop]
    by_cases h : i < N
    · have h1 : (i : ℚ) < (N : ℚ) := by exact_mod_cast h
      have h2 : i < INT_MAX := by omega
      simp only [h1, if_true, List.length_replicate, h, h2, List.set_replicate_self]
      exact ih (i + 1) (by omega) (by omega)
    · have h1 : ¬ (i : ℚ) < (N : ℚ) := by exact_mod_cast h
      simp [h1]

theorem write_null_eq (w : World) (path : String) (N : ℕ) (hN : N ≤ INT_MAX)
    (hopen : w.openable path = true) (hheap : N ≤ w.heap) :
    write_null w path (N : ℚ) = .returned (w.store path (List.replicate N 0)) 0 := by
  have h64 : N < 2 ^ 64 := by simp [INT_MAX] at hN; omega
  simp only [write_null, fopen_wb, hopen, if_true, to_size_t_natCast N h64, calloc, store_heap,
    hheap, null_loop_zeros N hN (INT_MAX + 1) 0 (by omega) (by omega), fwrite_store, List.nil_append]
  simp

theorem advance_timecode (T : ℤ) : advance (timecode T) = timecode (T + 1) := by
  have hq : (T / 75 % 60 : ℤ) ≤ 59 := by omega
  have hr : (T % 75 : ℤ) ≤ 74 := by omega
  by_cases hf : T % 75 = 74
  · have hf1 : ((T % 75 : ℤ) : ℚ) + 1 > 74 := by rw [hf]; norm_num
    by_cases hs : T / 75 % 60 = 59
    · have hs1 : ((T / 75 % 60 : ℤ) : ℚ) + 1 > 59 := by rw [hs]; norm_num
      have e1 : (T + 1) % 75 = 0 := by omega
      have e2 : (T + 1) / 75 % 60 = 0 := by omega
      have e3 : (T + 1) / 4500 = T / 4500 + 1 := by omega
      simp [advance, timecode, hf1, hs1, e1, e2, e3]
    · have hs1 : ¬ ((T / 75 % 60 : ℤ) : ℚ) + 1 > 59 := by
        have : (T / 75 % 60 : ℤ) + 1 ≤ 59 := by omega
        have : ((T / 75 % 60 : ℤ) : ℚ) + 1 ≤ 59 := by exact_mod_cast this
        linarith
      have e1 : (T + 1) % 75 = 0 := by omega
      have e2 : (T + 1) / 75 % 60 = T / 75 % 60 + 1 := by omega
      have e3 : (T + 1) / 4500 = T / 4500 := by omega
      simp [advance, timecode, hf1, hs1, e1, e2, e3]
  · have hf1 : ¬ ((T % 75 : ℤ) : ℚ) + 1 > 74 := by
      have : (T % 75 : ℤ) + 1 ≤ 74 := by omega
      have : ((T % 75 : ℤ) : ℚ) + 1 ≤ 74 := by exact_mod_cast this
      linarith
    have hs1 : ¬ ((T / 75 % 60 : ℤ) : ℚ) > 59 := by
      have : ((T / 75 % 60 : ℤ) : ℚ) ≤ 59 := by exact_mod_cast hq
      linarith
    have e1 : (T + 1) % 75 = T % 75 + 1 := by omega
    have e2 : (T + 1) / 75 % 60 = T / 75 % 60 := by omega
    have e3 : (T + 1) / 4500 = T / 4500 := by omega
    simp [advance, timecode, hf1, hs1, e1, e2, e3]

theorem iterate_advance_timecode (T : ℤ) (k : ℕ) :
    advance^[k] (timecode T) = timecode (T + k) := by
  induction k generalizing T with
  | zero => simp
  | succ k ih =>
    rw [Function.iterate_succ_apply, advance_timecode, ih]
    congr 1
    push_cast
    ring

theorem timecode_of_msf (m s f : ℤ) (hs : 0 ≤ s ∧ s ≤ 59) (hf : 0 ≤ f ∧ f ≤ 74) :
    timecode ((m * 60 + s) * 75 + f) = ((m : ℚ), (s : ℚ), (f : ℚ)) := by
  have e1 : ((m * 60 + s) * 75 + f) / 4500 = m := by omega
  have e2 : ((m * 60 + s) * 75 + f) / 75 % 60 = s := by omega
  have e3 : ((m * 60 + s) * 75 + f) % 75 = f := by omega
  simp only [timecode, e1, e2, e3]

theorem bcd_byte_intCast (z : ℤ) (h0 : 0 ≤ z) (h1 : z < 256) :
    bcd_byte (z : ℚ) = some ((z.toNat / 10 * 16 + z.toNat % 10) % 256) := by
  lift z to ℕ using h0
  have h : z < 256 := by exact_mod_cast h1
  simpa using bcd_byte_natCast z h

theorem sector_at_length (t : ℚ × ℚ × ℚ) : (sector_at t).length = 2352 :=
  sector_length _ _ _

theorem write_sector_at (w : World) (path : String) (t : ℚ × ℚ × ℚ)
    (hopen : w.openable path = true) (ht : Encodable t) :
    write_sector w path t.1 t.2.1 t.2.2 = .returned (fwrite w path (sector_at t)) 0 := by
  obtain ⟨h1, h2, h3⟩ := ht
  obtain ⟨a, ha⟩ := Option.isSome_iff_exists.mp h1
  obtain ⟨b, hb⟩ := Option.isSome_iff_exists.mp h2
  obtain ⟨c, hc⟩ := Option.isSome_iff_exists.mp h3
  rw [write_sector_eq w path _ _ _ a b c hopen ha hb hc, sector_at, ha, hb, hc]
  rfl

theorem flatMap_range_succ {α : Type} (g : ℕ → List α) (n : ℕ) :
    (List.range (n + 1)).flatMap g = g 0 ++ (List.range n).flatMap fun j => g (j + 1) := by
  rw [List.range_succ_eq_map, List.flatMap_cons]
  congr 1
  induction List.range n with
  | nil => rfl
  | cons a l ih => simp [ih]

theorem pregap_loop_eq (path : String) (n : ℕ) (u : World) (c : List Nat) (t : ℚ × ℚ × ℚ)
    (hopen : u.openable path = true) (ht : ∀ j < n, Encodable (advance^[j] t)) :
    pregap_loop path n (u.store path c) t
      = .returned (u.store path
          (c ++ (List.range n).flatMap fun j => sector_at (advance^[j] t))) 0 := by
  induction n generalizing c t with
  | zero => simp [pregap_loop]
  | succ n ih =>
    have h0 : Encodable t := ht 0 (Nat.succ_pos n)
    rw [pregap_loop, write_sector_at _ path t (by simpa [store_openable] using hopen) h0,
      fwrite_store]
    simp only
    rw [ih (c ++ sector_at t) (advance t)
      (fun j hj => by
        have := ht (j + 1) (Nat.succ_lt_succ hj)
        simpa [Function.iterate_succ_apply] using this)]
    rw [flatMap_range_succ (fun j => sector_at (advance^[j] t)) n, List.append_assoc]
    rfl

theorem length_flatMap_range {α : Type} (g : ℕ → List α) (L : ℕ)
    (hg : ∀ j, (g j).length = L) (n : ℕ) :
    ((List.range n).flatMap g).length = n * L := by
  induction n with
  | zero => simp
  | succ n ih =>
    rw [List.range_succ, List.flatMap_append, List.length_append, ih]
    simp [hg, Nat.succ_mul]

theorem chunk_flatMap_range {α : Type} (g : ℕ → List α) (L : ℕ)
    (hg : ∀ j, (g j).length = L) (n k : ℕ) (hk : k < n) :
    (((List.range n).flatMap g).drop (k * L)).take L = g k := by
  induction n with
  | zero => omega
  | succ n ih =>
    have hlen := length_flatMap_range g L hg n
    have hlast : (List.range (n + 1)).flatMap g = (List.range n).flatMap g ++ g n := by
      rw [List.range_succ, List.flatMap_append]
      simp
    rw [hlast]
    by_cases h : k < n
    · have h1 : k * L + L ≤ n * L := by
        calc k * L + L = (k + 1) * L := by ring
          _ ≤ n * L := Nat.mul_le_mul_right L h
      rw [List.drop_append_of_le_length (by omega), List.take_append_of_le_length]
      · exact ih h
      · rw [List.length_drop, hlen]
        omega
    · have hkn : k = n := by omega
      subst hkn
      rw [List.drop_left' hlen, List.take_of_length_le (by rw [hg])]

theorem encodable_timecode (T : ℤ) (h0 : 0 ≤ T) (h1 : T < 256 * 4500) :
    Encodable (timecode T) := by
  refine ⟨?_, ?_, ?_⟩
  · simp only [timecode]
    rw [bcd_byte_intCast _ (by omega) (by omega)]
    rfl
  · simp only [timecode]
    rw [bcd_byte_intCast _ (by omega) (by omega)]
    rfl
  · simp only [timecode]
    rw [bcd_byte_intCast _ (by omega) (by omega)]
    rfl

theorem natCast_msf (m s f : ℕ) (hs : s ≤ 59) (hf : f ≤ 74) :
    ((m : ℚ), (s : ℚ), (f : ℚ)) = timecode (((m : ℤ) * 60 + s) * 75 + f) := by
  rw [timecode_of_msf (m : ℤ) (s : ℤ) (f : ℤ) (by omega) (by omega)]
  simp

theorem write_pregap_eq (w : World) (path : String) (m s f : ℕ)
    (hm : m ≤ 255 - 1) (hs : s ≤ 59) (hf : f ≤ 74)
    (hopen : w.openable path = true) (hheap : 176400 ≤ w.heap) :
    write_pregap w path m s f
      = .returned (w.store path (List.replicate 176400 0
          ++ (List.range 150).flatMap fun j => sector_at (advance^[j] ((m : ℚ), (s : ℚ), (f : ℚ)))))
          0 := by
  have hnull := write_null_eq w path 176400 (by simp [INT_MAX]) hopen hheap
  simp only [Nat.cast_ofNat] at hnull
  rw [write_pregap, hnull]
  simp only
  apply pregap_loop_eq path 150 w _ _ hopen
  intro j hj
  rw [natCast_msf m s f hs hf, iterate_advance_timecode]
  apply encodable_timecode <;> omega

theorem getElem?_of_chunk {α : Type} (l : List α) (off L i : ℕ) (hi : i < L) :
    ((l.drop off).take L)[i]? = l[off + i]? := by
  rw [List.getElem?_take_of_lt hi, List.getElem?_drop]

theorem sector_fields (a b c : ℕ) (tail : List ℕ) :
    (sync ++ [a] ++ [b] ++ [c] ++ [1] ++ tail).take 12 = sync ∧
    (sync ++ [a] ++ [b] ++ [c] ++ [1] ++ tail)[12]? = some a ∧
    (sync ++ [a] ++ [b] ++ [c] ++ [1] ++ tail)[13]? = some b ∧
    (sync ++ [a] ++ [b] ++ [c] ++ [1] ++ tail)[14]? = some c ∧
    (sync ++ [a] ++ [b] ++ [c] ++ [1] ++ tail)[15]? = some 1 ∧
    (sync ++ [a] ++ [b] ++ [c] ++ [1] ++ tail).drop 16 = tail :=
  ⟨by simp [sync], by simp [sync], by simp [sync], by simp [sync], by simp [sync],
    by simp [sync]⟩

theorem sector_at_natCast (m s f : ℕ) (hm : m ≤ 99) (hs : s ≤ 59) (hf : f ≤ 74) :
    sector_at ((m : ℚ), (s : ℚ), (f : ℚ))
      = sector (m / 10 * 16 + m % 10) (s / 10 * 16 + s % 10) (f / 10 * 16 + f % 10) := by
  simp only [sector_at, bcd_byte_decimal m hm, bcd_byte_decimal s (by omega),
    bcd_byte_decimal f (by omega), Option.getD_some]

theorem iterate_advance_int (m s f : ℤ) (k : ℕ) (hs : 0 ≤ s ∧ s ≤ 59) (hf : 0 ≤ f ∧ f ≤ 74) :
    advance^[k] ((m : ℚ), (s : ℚ), (f : ℚ)) = timecode ((m * 60 + s) * 75 + f + k) := by
  rw [← timecode_of_msf m s f hs hf, iterate_advance_timecode]

theorem advance_intCast (m s f : ℤ) :
    advance ((m : ℚ), (s : ℚ), (f : ℚ))
      = (((advance_spec (m, s, f)).1 : ℚ), ((advance_spec (m, s, f)).2.1 : ℚ),
          ((advance_spec (m, s, f)).2.2 : ℚ)) := by
  have hf : ((f : ℚ) + 1 > 74) ↔ (f + 1 > 74) := by
    constructor <;> intro h <;> exact_mod_cast h
  have hs1 : ((s : ℚ) + 1 > 59) ↔ (s + 1 > 59) := by
    constructor <;> intro h <;> exact_mod_cast h
  have hs0 : ((s : ℚ) > 59) ↔ (s > 59) := by
    constructor <;> intro h <;> exact_mod_cast h
  by_cases h1 : f + 1 > 74
  · by_cases h2 : s + 1 > 59
    · simp [advance, advance_spec, hf.mpr h1, hs1.mpr h2, h1, h2]
    · simp [advance, advance_spec, hf.mpr h1, mt hs1.mp h2, h1, h2]
  · by_cases h2 : s > 59
    · simp [advance, advance_spec, mt hf.mp h1, hs0.mpr h2, h1, h2]
    · simp [advance, advance_spec, mt hf.mp h1, mt hs0.mp h2, h1, h2]

theorem sector_at_minute (t : ℚ × ℚ × ℚ) :
    (sector_at t)[12]? = some ((bcd_byte t.1).getD 0) :=
  (sector_fields _ _ _ _).2.1

theorem write_pregap_eq_of_encodable (w : World) (path : String) (t : ℚ × ℚ × ℚ)
    (ht : ∀ j < 150, Encodable (advance^[j] t))
    (hopen : w.openable path = true) (hheap : 176400 ≤ w.heap) :
    write_pregap w path t.1 t.2.1 t.2.2
      = .returned (w.store path (List.replicate 176400 0
          ++ (List.range 150).flatMap fun j => sector_at (advance^[j] t))) 0 := by
  have hnull := write_null_eq w path 176400 (by simp [INT_MAX]) hopen hheap
  simp only [Nat.cast_ofNat] at hnull
  rw [write_pregap, hnull]
  simp only
  exact pregap_loop_eq path 150 w _ _ hopen ht

theorem pregap_content_length (t : ℚ × ℚ × ℚ) :
    (List.replicate 176400 0
      ++ (List.range 150).flatMap fun j => sector_at (advance^[j] t)).length = 529200 := by
  rw [List.length_append, List.length_replicate,
    length_flatMap_range _ 2352 (fun j => sector_at_length _)]

theorem pregap_content_minute (t : ℚ × ℚ × ℚ) (k : ℕ) (hk : k < 150) :
    (List.replicate 176400 0
      ++ (List.range 150).flatMap fun j => sector_at (advance^[j] t))[176400 + k * 2352 + 12]?
      = some ((bcd_byte (advance^[k] t).1).getD 0) := by
  rw [← getElem?_of_chunk _ (176400 + k * 2352) 2352 12 (by decide), ← List.drop_drop,
    List.drop_left' (List.length_replicate _ _),
    chunk_flatMap_range _ 2352 (fun j => sector_at_length _) 150 k hk]
  exact sector_at_minute _

theorem write_sector_congr (w : World) (path : String) (x y z x1 y1 z1 : ℚ)
    (hx : bcd_byte x = bcd_byte x1) (hy : bcd_byte y = bcd_byte y1)
    (hz : bcd_byte z = bcd_byte z1) :
    write_sector w path x y z = write_sector w path x1 y1 z1 := by
  unfold write_sector
  rw [hx, hy, hz]

theorem mem_null_loop_stores (size : ℚ) (hsize : size ≤ (INT_MAX : ℚ)) (fuel i0 i : ℕ)
    (hfuel : INT_MAX < fuel + i0) :
    i ∈ null_loop_stores size fuel i0 ↔ i0 ≤ i ∧ (i : ℚ) < size := by
  induction fuel generalizing i0 with
  | zero =>
    simp only [null_loop_stores, List.not_mem_nil, false_iff, not_and, not_lt]
    intro h
    have h1 : (INT_MAX : ℚ) ≤ (i : ℚ) := by
      have : INT_MAX ≤ i := by omega
      exact_mod_cast this
    linarith
  | succ fuel ih =>
    rw [null_loop_stores]
    by_cases h : (i0 : ℚ) < size
    · have h1 : i0 < INT_MAX := by
        have : (i0 : ℚ) < (INT_MAX : ℚ) := lt_of_lt_of_le h hsize
        exact_mod_cast this
      simp only [h, if_true, h1, List.mem_cons, ih (i0 + 1) (by omega)]
      constructor
      · rintro (rfl | ⟨h2, h3⟩)
        · exact ⟨le_refl _, h⟩
        · exact ⟨by omega, h3⟩
      · rintro ⟨h2, h3⟩
        by_cases h4 : i = i0
        · exact Or.inl h4
        · exact Or.inr ⟨by omega, h3⟩
    · simp only [h, if_false, List.not_mem_nil, false_iff, not_and, not_lt]
      intro h2
      have h3 : (i0 : ℚ) ≤ (i : ℚ) := by exact_mod_cast h2
      linarith

theorem null_loop_stores_le (size : ℚ) (fuel i0 i : ℕ) (h0 : i0 ≤ INT_MAX)
    (hi : i ∈ null_loop_stores size fuel i0) : i ≤ INT_MAX := by
  induction fuel generalizing i0 with
  | zero => simp [null_loop_stores] at hi
  | succ fuel ih =>
    rw [null_loop_stores] at hi
    by_cases h : (i0 : ℚ) < size
    · simp only [h, if_true, List.mem_cons] at hi
      rcases hi with rfl | hi
      · exact h0
      · by_cases h1 : i0 < INT_MAX
        · simp only [h1, if_true] at hi
          exact ih (i0 + 1) (by omega) hi
        · simp [h1] at hi
    · simp [h] at hi

theorem null_loop_out_of_bounds (size : ℚ) (n : ℕ) (hn : (n : ℚ) < size) (hmax : n ≤ INT_MAX)
    (fuel i : ℕ) (hi : i ≤ n) (hfuel : n < fuel + i) :
    null_loop size fuel i (List.replicate n 0) = none := by
  induction fuel generalizing i with
  | zero => omega
  | succ fuel ih =>
    rw [null_loop]
    by_cases h : i < n
    · have h1 : (i : ℚ) < size := by
        have : (i : ℚ) < (n : ℚ) := by exact_mod_cast h
        linarith
      have h2 : i < INT_MAX := by omega
      simp only [h1, if_true, List.length_replicate, h, h2, List.set_replicate_self]
      exact ih (i + 1) (by omega) (by omega)
    · have hin : i = n := by omega
      subst hin
      simp only [hn, if_true, List.length_replicate, lt_irrefl, if_false]

theorem null_loop_overflow (size : ℚ) (hsize : (INT_MAX : ℚ) < size) (n : ℕ)
    (hn : INT_MAX < n) (fuel i : ℕ) (hfuel : fuel + i = INT_MAX + 1) :
    null_loop size fuel i (List.replicate n 0) = none := by
  induction fuel generalizing i with
  | zero => rfl
  | succ fuel ih =>
    rw [null_loop]
    have hi : (i : ℚ) ≤ (INT_MAX : ℚ) := by
      have : i ≤ INT_MAX := by omega
      exact_mod_cast this
    have h1 : (i : ℚ) < size := lt_of_le_of_lt hi hsize
    have h2 : i < n := by omega
    simp only [h1, if_true, List.length_replicate, h2, List.set_replicate_self]
    by_cases h3 : i < INT_MAX
    · simp only [h3, if_true]
      exact ih _ (by omega)
    · simp only [h3, if_false]

theorem floor_toNat_cast (size : ℚ) (h0 : 0 ≤ size) :
    ((⌊size⌋.toNat : ℕ) : ℚ) = ((⌊size⌋ : ℤ) : ℚ) := by
  have h : ((⌊size⌋.toNat : ℕ) : ℤ) = ⌊size⌋ := Int.toNat_of_nonneg (Int.floor_nonneg.mpr h0)
  exact_mod_cast h

theorem to_size_t_floor (size : ℚ) (h0 : 0 ≤ size) (h1 : size < 2 ^ 64) :
    to_size_t size = some ⌊size⌋.toNat := by
  have h2 : (-1 : ℚ) < size := by linarith
  simp [to_size_t, trunc, h0, h1, h2]

theorem bcd_byte_total (x : ℚ) : ∃ b, bcd_byte x = some b := by
  simp [bcd_byte, to_uchar]

theorem encodable_any (t : ℚ × ℚ × ℚ) : Encodable t := by
  obtain ⟨a, ha⟩ := bcd_byte_total t.1
  obtain ⟨b, hb⟩ := bcd_byte_total t.2.1
  obtain ⟨c, hc⟩ := bcd_byte_total t.2.2
  simp [Encodable, ha, hb, hc]

theorem advance_double_eq (m s f : ℤ) (hm : -2 ^ 53 ≤ m ∧ m < 2 ^ 53)
    (hs : -2 ^ 53 ≤ s ∧ s < 2 ^ 53) (hf : -2 ^ 53 ≤ f ∧ f < 2 ^ 53) :
    advance_double ((m : ℚ), (s : ℚ), (f : ℚ)) = advance ((m : ℚ), (s : ℚ), (f : ℚ)) := by
  simp only [advance_double, advance, round_double_add_one m hm, round_double_add_one s hs,
    round_double_add_one f hf]

theorem iterate_advance_double (T : ℤ) (k : ℕ) (hlo : -2 ^ 53 ≤ T / 4500)
    (hhi : (T + k) / 4500 < 2 ^ 53) :
    advance_double^[k] (timecode T) = advance^[k] (timecode T) := by
  induction k with
  | zero => rfl
  | succ k ih =>
    have hk : (T + (k : ℕ)) / 4500 < 2 ^ 53 := by
      push_cast at hhi
      omega
    rw [Function.iterate_succ_apply', Function.iterate_succ_apply', ih hk,
      iterate_advance_timecode]
    exact advance_double_eq _ _ _ (by constructor <;> omega) (by constructor <;> omega)
      (by constructor <;> omega)

theorem advance_double_carry :
    advance_double ((2 : ℚ) ^ 53, (59 : ℚ), (74 : ℚ)) = ((2 : ℚ) ^ 53, (0 : ℚ), (0 : ℚ)) := by
  have h1 : round_double ((74 : ℚ) + 1) = 75 := by
    have := round_double_intCast 75 (by norm_num)
    norm_num at this ⊢
    exact this
  have h2 : round_double ((59 : ℚ) + 1) = 60 := by
    have := round_double_intCast 60 (by norm_num)
    norm_num at this ⊢
    exact this
  simp only [advance_double, h1, h2, round_double_tie]
  norm_num

theorem advance_double_no_carry (x : ℚ) (s f : ℤ) (hs : s ≤ 59) (hf : 0 ≤ f ∧ f < 74) :
    advance_double (x, (s : ℚ), (f : ℚ)) = (x, (s : ℚ), ((f + 1 : ℤ) : ℚ)) := by
  have h1 : round_double ((f : ℚ) + 1) = (f : ℚ) + 1 :=
    round_double_add_one f (by constructor <;> omega)
  have h2 : ¬ (f : ℚ) + 1 > 74 := by
    have : f + 1 ≤ 74 := by omega
    have : ((f + 1 : ℤ) : ℚ) ≤ 74 := by exact_mod_cast this
    push_cast at this
    linarith
  have h3 : ¬ (s : ℚ) > 59 := by
    have : (s : ℚ) ≤ 59 := by exact_mod_cast hs
    linarith
  simp only [advance_double, h1, h2, h3, if_false]
  push_cast
  rfl

theorem iterate_advance_double_no_carry (x : ℚ) (s : ℤ) (hs : s ≤ 59) (j : ℕ) (hj : j ≤ 74) :
    advance_double^[j] (x, (s : ℚ), (0 : ℚ)) = (x, (s : ℚ), (j : ℚ)) := by
  induction j with
  | zero => simp
  | succ j ih =>
    rw [Function.iterate_succ_apply', ih (by omega)]
    have h := advance_double_no_carry x s (j : ℤ) hs (by constructor <;> omega)
    push_cast at h ⊢
    exact h

theorem timecode_natCast (T : ℕ) :
    timecode (T : ℤ)
      = (((T / 4500 : ℕ) : ℚ), ((T / 75 % 60 : ℕ) : ℚ), ((T % 75 : ℕ) : ℚ)) := by
  simp only [timecode]
  norm_cast

theorem sector_explicit (a b c : ℕ) :
    sector a b c
      = [0x00, 0xFF, 0xFF, 0xFF, 0xFF, 0xFF, 0xFF, 0xFF, 0xFF, 0xFF, 0xFF, 0x00]
          ++ [a, b, c, 0x01] ++ List.replicate 2336 0 := by
  unfold sector
  generalize List.replicate 2336 0 = tail
  simp [sync]

theorem sector_at_natCast_wide (a b c : ℕ) (ha : a ≤ 159) (hb : b ≤ 159) (hc : c ≤ 159) :
    sector_at ((a : ℚ), (b : ℚ), (c : ℚ))
      = sector (a / 10 * 16 + a % 10) (b / 10 * 16 + b % 10) (c / 10 * 16 + c % 10) := by
  have key : ∀ v : ℕ, v ≤ 159 → bcd_byte (v : ℚ) = some (v / 10 * 16 + v % 10) := by
    intro v hv
    rw [bcd_byte_natCast v (by omega)]
    exact congrArg some (Nat.mod_eq_of_lt (by omega))
  simp only [sector_at, key a ha, key b hb, key c hc, Option.getD_some]

theorem pregap_content_chunk (t : ℚ × ℚ × ℚ) (k : ℕ) (hk : k < 150) :
    ((List.replicate 176400 0
      ++ (List.range 150).flatMap fun j => sector_at (advance^[j] t)).drop
        (176400 + k * 2352)).take 2352 = sector_at (advance^[k] t) := by
  rw [← List.drop_drop, List.drop_left' (List.length_replicate _ _),
    chunk_flatMap_range _ 2352 (fun j => sector_at_length _) 150 k hk]

theorem pregap_content_zeros (t : ℚ × ℚ × ℚ) :
    (List.replicate 176400 0
      ++ (List.range 150).flatMap fun j => sector_at (advance^[j] t)).take 176400
      = List.replicate 176400 0 :=
  List.take_left' (List.length_replicate _ _)

end Write

/-! ## Lemmas on `read.c` -/

namespace Read

set_option maxRecDepth 100000 in
theorem printf_x_pair : ∀ b < 256,
    (if b < 16 then '0' :: printf_x b else printf_x b) = hex_pair b := by
  decide

theorem hex_loop_eq (N : ℕ) (hN : N ≤ INT_MAX) (content : List Nat)
    (hbytes : ∀ b ∈ content, b < 256) (fuel i pos byte : ℕ) (out : List Char)
    (hi : i ≤ N) (hpos : pos + (N - i) ≤ content.length) (hfuel : N < fuel + i) :
    hex_loop (N : ℚ) content fuel i pos byte out
      = some (out ++ ((content.drop pos).take (N - i)).flatMap fun b => hex_pair b ++ [' ']) := by
  induction fuel generalizing i pos byte out with
  | zero => omega
  | succ fuel ih =>
    rw [hex_loop]
    by_cases h : i < N
    · have h1 : (i : ℚ) < (N : ℚ) := by exact_mod_cast h
      have h2 : i < INT_MAX := by omega
      have h3 : pos < content.length := by omega
      have hb : content[pos] < 256 := hbytes _ (List.getElem_mem h3)
      have hpr := printf_x_pair _ hb
      simp only [h1, if_true, h2, h3, List.getElem?_eq_getElem, Option.getD_some]
      rw [ih (i + 1) (pos + 1) _ _ (by omega) (by omega) (by omega)]
      have hdrop : content.drop pos = content[pos] :: content.drop (pos + 1) :=
        List.drop_eq_getElem_cons h3
      have hN : N - i = (N - (i + 1)) + 1 := by omega
      rw [hdrop, hN, List.take_succ_cons, List.flatMap_cons, ← hpr]
      split <;> simp
    · have h1 : ¬ (i : ℚ) < (N : ℚ) := by exact_mod_cast h
      have h0 : N - i = 0 := by omega
      simp [h1, h0]

theorem hex_loop_overflow (size : ℚ) (hsize : (INT_MAX : ℚ) < size) (content : List Nat)
    (fuel i pos byte : ℕ) (out : List Char) (hfuel : fuel + i = INT_MAX + 1) :
    hex_loop size content fuel i pos byte out = none := by
  induction fuel generalizing i pos byte out with
  | zero => rfl
  | succ fuel ih =>
    rw [hex_loop]
    have hi : (i : ℚ) ≤ (INT_MAX : ℚ) := by
      have : i ≤ INT_MAX := by omega
      exact_mod_cast this
    have h1 : (i : ℚ) < size := lt_of_le_of_lt hi hsize
    simp only [h1, if_true]
    by_cases h2 : i < INT_MAX
    · simp only [h2, if_true]
      exact ih _ _ _ _ (by omega)
    · simp only [h2, if_false]

theorem read_hex_ok (w : World) (path : String) (content : List Nat) (size skip : ℕ)
    (hopen : w.openable path = true) (hfile : w.files path = some content)
    (hbytes : ∀ b ∈ content, b < 256) (hlong : content.length < 2 ^ 63)
    (hsize : size ≤ INT_MAX) (hrange : size + skip ≤ content.length) :
    read_hex w path size skip
      = .returned { w with stdout :=
          w.stdout ++ hex_dump_terminated ((content.drop skip).take size) } 0 := by
  have hcmp : ¬ (((content.length : ℤ) : ℚ) < (size : ℚ) + (skip : ℚ)) := by
    have : (size : ℚ) + (skip : ℚ) ≤ ((content.length : ℤ) : ℚ) := by exact_mod_cast hrange
    linarith
  have hloop := hex_loop_eq size hsize content hbytes (INT_MAX + 1) 0 skip 0 w.stdout
    (Nat.zero_le _) (by omega) (by omega)
  simp only [read_hex, fopen_rb, hopen, if_true, hfile, hcmp, if_false,
    to_long_natCast skip (by omega), Int.toNat_ofNat, Nat.cast_nonneg, hloop, Nat.sub_zero,
    hex_dump_terminated, List.append_assoc]

theorem read_hex_range (w : World) (path : String) (content : List Nat) (size skip : ℚ)
    (hopen : w.openable path = true) (hfile : w.files path = some content)
    (hrange : (content.length : ℚ) < size + skip) :
    read_hex w path size skip
      = .exited { w with stderr := w.stderr
          ++ "size + skip value bigger than file size\n".toList } 2 := by
  have hcmp : ((content.length : ℤ) : ℚ) < size + skip := by simpa using hrange
  simp only [read_hex, fopen_rb, hopen, if_true, hfile, hcmp]

theorem read_hex_overflow (w : World) (path : String) (content : List Nat) (size skip : ℕ)
    (hopen : w.openable path = true) (hfile : w.files path = some content)
    (hlong : content.length < 2 ^ 63)
    (hsize : INT_MAX < size) (hrange : size + skip ≤ content.length) :
    read_hex w path size skip = .undefined := by
  have hcmp : ¬ (((content.length : ℤ) : ℚ) < (size : ℚ) + (skip : ℚ)) := by
    have : (size : ℚ) + (skip : ℚ) ≤ ((content.length : ℤ) : ℚ) := by exact_mod_cast hrange
    linarith
  have hloop := hex_loop_overflow (size : ℚ) (by exact_mod_cast hsize) content (INT_MAX + 1) 0
    skip 0 w.stdout rfl
  simp only [read_hex, fopen_rb, hopen, if_true, hfile, hcmp, if_false,
    to_long_natCast skip (by omega), Int.toNat_ofNat, Nat.cast_nonneg, hloop]

theorem hex_loop_terminates (N : ℕ) (hN : N ≤ INT_MAX) (content : List Nat)
    (fuel i pos byte : ℕ) (out : List Char) (hi : i ≤ N) (hfuel : N < fuel + i) :
    ∃ out1, hex_loop (N : ℚ) content fuel i pos byte out = some out1 := by
  induction fuel generalizing i pos byte out with
  | zero => omega
  | succ fuel ih =>
    rw [hex_loop]
    by_cases h : i < N
    · have h1 : (i : ℚ) < (N : ℚ) := by exact_mod_cast h
      have h2 : i < INT_MAX := by omega
      simp only [h1, if_true, h2]
      exact ih _ _ _ _ (by omega) (by omega)
    · have h1 : ¬ (i : ℚ) < (N : ℚ) := by exact_mod_cast h
      exact ⟨out, by simp only [h1, if_false]⟩

theorem read_hex_returns (w : World) (path : String) (content : List Nat) (size skip : ℕ)
    (hopen : w.openable path = true) (hfile : w.files path = some content)
    (hlong : content.length < 2 ^ 63)
    (hsize : size ≤ INT_MAX) (hrange : size + skip ≤ content.length) :
    ∃ w1, read_hex w path size skip = .returned w1 0 := by
  have hcmp : ¬ (((content.length : ℤ) : ℚ) < (size : ℚ) + (skip : ℚ)) := by
    have : (size : ℚ) + (skip : ℚ) ≤ ((content.length : ℤ) : ℚ) := by exact_mod_cast hrange
    linarith
  obtain ⟨out1, hloop⟩ := hex_loop_terminates size hsize content (INT_MAX + 1) 0 skip 0 w.stdout
    (Nat.zero_le _) (by omega)
  refine ⟨{ w with stdout := out1 ++ ['\n'] }, ?_⟩
  simp only [read_hex, fopen_rb, hopen, if_true, hfile, hcmp, if_false,
    to_long_natCast skip (by omega), Int.toNat_ofNat, Nat.cast_nonneg, hloop]

theorem range_test_double_eq (L size skip : ℕ) (hL : L < 2 ^ 53) :
    range_test_double (L : ℤ) size skip = decide ((L : ℚ) < (size : ℚ) + skip) := by
  have hLr : round_double (((L : ℤ) : ℚ)) = L := by
    rw [round_double_intCast _ (by rw [abs_le]; constructor <;> omega)]
    norm_num
  unfold range_test_double
  rw [hLr]
  by_cases hn : size + skip ≤ 2 ^ 53
  · have hs : round_double ((size : ℚ) + skip) = (size : ℚ) + skip := by
      have := round_double_intCast ((size + skip : ℕ) : ℤ) (by rw [abs_le]; constructor <;> omega)
      push_cast at this
      exact this
    rw [hs]
  · have hbig : (2 : ℚ) ^ 53 ≤ (size : ℚ) + skip := by
      have : (2 ^ 53 : ℕ) ≤ size + skip := by omega
      exact_mod_cast this
    have h1 := round_double_ge _ hbig
    have hLq : (L : ℚ) < 2 ^ 53 := by exact_mod_cast hL
    have a1 : (L : ℚ) < round_double ((size : ℚ) + skip) := lt_of_lt_of_le hLq h1
    have a2 : (L : ℚ) < (size : ℚ) + skip := lt_of_lt_of_le hLq hbig
    simp [a1, a2]

end Read

/-! ## The claims -/

namespace Write

/-- C1: for a timecode with minute in [0,99], second in [0,59] and frame in
[0,74], `write_sector` appends a record of exactly 2352 bytes: the 12 sync
bytes, the BCD bytes of minute, second and frame, the mode byte `0x01`, and
2336 zero bytes. -/
theorem write_sector_layout (w : World) (path : String) (m s f : ℕ)
    (hm : m ≤ 99) (hs : s ≤ 59) (hf : f ≤ 74) (hopen : w.openable path = true) :
    ∃ r : List Nat,
      write_sector w path m s f = .returned (fwrite w path r) 0 ∧
      r.length = 2352 ∧
      r.take 12 = [0x00, 0xFF, 0xFF, 0xFF, 0xFF, 0xFF, 0xFF, 0xFF, 0xFF, 0xFF, 0xFF, 0x00] ∧
      r[12]? = some (m / 10 * 16 + m % 10) ∧
      r[13]? = some (s / 10 * 16 + s % 10) ∧
      r[14]? = some (f / 10 * 16 + f % 10) ∧
      r[15]? = some 0x01 ∧
      r.drop 16 = List.replicate 2336 0 := by
  refine ⟨sector (m / 10 * 16 + m % 10) (s / 10 * 16 + s % 10) (f / 10 * 16 + f % 10),
    ?_, sector_length _ _ _, sector_fields _ _ _ _⟩
  exact write_sector_eq w path _ _ _ _ _ _ hopen (bcd_byte_decimal m hm)
    (bcd_byte_decimal s (by omega)) (bcd_byte_decimal f (by omega))

theorem write_sector_layout_witness :
    ∃ r : List Nat,
      write_sector blank "track.bin" ((45 : ℕ) : ℚ) ((9 : ℕ) : ℚ) ((0 : ℕ) : ℚ)
        = .returned (fwrite blank "track.bin" r) 0 ∧
      r.length = 2352 ∧
      r.take 12 = [0x00, 0xFF, 0xFF, 0xFF, 0xFF, 0xFF, 0xFF, 0xFF, 0xFF, 0xFF, 0xFF, 0x00] ∧
      r[12]? = some (45 / 10 * 16 + 45 % 10) ∧
      r[13]? = some (9 / 10 * 16 + 9 % 10) ∧
      r[14]? = some (0 / 10 * 16 + 0 % 10) ∧
      r[15]? = some 0x01 ∧
      r.drop 16 = List.replicate 2336 0 :=
  write_sector_layout blank "track.bin" 45 9 0 (by decide) (by decide) (by decide) rfl

/-- C2: for a start timecode with minute in [0,99], second in [0,59] and
frame in [0,74], `write_pregap` leaves the sink with exactly 529200 bytes; the
first 176400 are zero, and for every k < 150 the 2352 bytes at offset
176400 + k * 2352 are the record `write_sector` appends for the start timecode
advanced k times.  That timecode is start plus k frames: with
T = (m * 60 + s) * 75 + f + k it is (T / 4500, (T / 75) % 60, T % 75), and the
record is the sync pattern, the BCD bytes of these three values, `0x01` and
2336 zero bytes. -/
theorem write_pregap_layout (w : World) (path : String) (m s f : ℕ)
    (hm : m ≤ 99) (hs : s ≤ 59) (hf : f ≤ 74)
    (hopen : w.openable path = true) (hheap : 176400 ≤ w.heap) :
    ∃ (w1 : World) (content : List Nat),
      write_pregap w path m s f = .returned w1 0 ∧
      w1.files path = some content ∧
      content.length = 529200 ∧
      content.take 176400 = List.replicate 176400 0 ∧
      ∀ k < 150, ∀ T : ℕ, T = (m * 60 + s) * 75 + f + k →
        advance^[k] ((m : ℚ), (s : ℚ), (f : ℚ))
          = (((T / 4500 : ℕ) : ℚ), ((T / 75 % 60 : ℕ) : ℚ), ((T % 75 : ℕ) : ℚ)) ∧
        (content.drop (176400 + k * 2352)).take 2352
          = [0x00, 0xFF, 0xFF, 0xFF, 0xFF, 0xFF, 0xFF, 0xFF, 0xFF, 0xFF, 0xFF, 0x00]
              ++ [T / 4500 / 10 * 16 + T / 4500 % 10,
                  T / 75 % 60 / 10 * 16 + T / 75 % 60 % 10,
                  T % 75 / 10 * 16 + T % 75 % 10, 0x01]
              ++ List.replicate 2336 0 ∧
        ∀ u : World, u.openable path = true →
          write_sector u path (advance^[k] ((m : ℚ), (s : ℚ), (f : ℚ))).1
              (advance^[k] ((m : ℚ), (s : ℚ), (f : ℚ))).2.1
              (advance^[k] ((m : ℚ), (s : ℚ), (f : ℚ))).2.2
            = .returned (fwrite u path ((content.drop (176400 + k * 2352)).take 2352)) 0 := by
  refine ⟨_, _, write_pregap_eq w path m s f (by omega) hs hf hopen hheap,
    store_files_self _ _ _, pregap_content_length _, pregap_content_zeros _, ?_⟩
  intro k hk T hT
  have hadv : advance^[k] ((m : ℚ), (s : ℚ), (f : ℚ))
      = (((T / 4500 : ℕ) : ℚ), ((T / 75 % 60 : ℕ) : ℚ), ((T % 75 : ℕ) : ℚ)) := by
    rw [natCast_msf m s f hs hf, iterate_advance_timecode, ← timecode_natCast, hT]
    push_cast
    rfl
  refine ⟨hadv, ?_, ?_⟩
  · rw [pregap_content_chunk _ k hk, hadv,
      sector_at_natCast_wide _ _ _ (by omega) (by omega) (by omega), sector_explicit]
  · intro u hu
    rw [pregap_content_chunk _ k hk]
    exact write_sector_at u path _ hu (encodable_any _)

theorem write_pregap_layout_witness :
    ∃ (w1 : World) (content : List Nat),
      write_pregap blank "track.bin" ((99 : ℕ) : ℚ) ((59 : ℕ) : ℚ) ((74 : ℕ) : ℚ)
        = .returned w1 0 ∧
      w1.files "track.bin" = some content ∧
      content.length = 529200 ∧
      content.take 176400 = List.replicate 176400 0 ∧
      ∀ k < 150, ∀ T : ℕ, T = (99 * 60 + 59) * 75 + 74 + k →
        advance^[k] (((99 : ℕ) : ℚ), ((59 : ℕ) : ℚ), ((74 : ℕ) : ℚ))
          = (((T / 4500 : ℕ) : ℚ), ((T / 75 % 60 : ℕ) : ℚ), ((T % 75 : ℕ) : ℚ)) ∧
        (content.drop (176400 + k * 2352)).take 2352
          = [0x00, 0xFF, 0xFF, 0xFF, 0xFF, 0xFF, 0xFF, 0xFF, 0xFF, 0xFF, 0xFF, 0x00]
              ++ [T / 4500 / 10 * 16 + T / 4500 % 10,
                  T / 75 % 60 / 10 * 16 + T / 75 % 60 % 10,
                  T % 75 / 10 * 16 + T % 75 % 10, 0x01]
              ++ List.replicate 2336 0 ∧
        ∀ u : World, u.openable "track.bin" = true →
          write_sector u "track.bin"
              (advance^[k] (((99 : ℕ) : ℚ), ((59 : ℕ) : ℚ), ((74 : ℕ) : ℚ))).1
              (advance^[k] (((99 : ℕ) : ℚ), ((59 : ℕ) : ℚ), ((74 : ℕ) : ℚ))).2.1
              (advance^[k] (((99 : ℕ) : ℚ), ((59 : ℕ) : ℚ), ((74 : ℕ) : ℚ))).2.2
            = .returned (fwrite u "track.bin"
                ((content.drop (176400 + k * 2352)).take 2352)) 0 :=
  write_pregap_layout blank "track.bin" 99 59 74 (by decide) (by decide) (by decide) rfl
    (by decide)

/-- C3: for v in [0,99] the timecode byte computed by `write_sector` is
`(v / 10) * 16 + (v % 10)`, untouched by the 8-bit store: its high nibble is
the tens digit of v and its low nibble the ones digit. -/
theorem bcd_byte_digits (v : ℕ) (hv : v ≤ 99) :
    bcd_byte (v : ℚ) = some (v / 10 * 16 + v % 10) ∧
    v / 10 * 16 + v % 10 < 256 ∧
    (v / 10 * 16 + v % 10) / 16 = v / 10 ∧
    (v / 10 * 16 + v % 10) % 16 = v % 10 :=
  ⟨bcd_byte_decimal v hv, by omega, by omega, by omega⟩

theorem bcd_byte_digits_witness :
    (bcd_byte ((45 : ℕ) : ℚ) = some 0x45 ∧ bcd_byte ((9 : ℕ) : ℚ) = some 0x09 ∧
      bcd_byte ((0 : ℕ) : ℚ) = some 0x00) ∧
    (45 ≤ 99 ∧ 9 ≤ 99 ∧ 0 ≤ 99) :=
  ⟨⟨(bcd_byte_digits 45 (by decide)).1, (bcd_byte_digits 9 (by decide)).1,
    (bcd_byte_digits 0 (by decide)).1⟩, by decide⟩

/-- C5: after `write_pregap (m, s, f)` with minute in [0,99], second in
[0,59] and frame in [0,74], the bytes at offsets 176412, 176413 and 176414 of
the sink decode (10 * high nibble + low nibble) to m, s and f. -/
theorem pregap_read_back (w : World) (path : String) (m s f : ℕ)
    (hm : m ≤ 99) (hs : s ≤ 59) (hf : f ≤ 74)
    (hopen : w.openable path = true) (hheap : 176400 ≤ w.heap) :
    ∃ (w1 : World) (content : List Nat) (b0 b1 b2 : ℕ),
      write_pregap w path m s f = .returned w1 0 ∧
      w1.files path = some content ∧
      content[176412]? = some b0 ∧ content[176413]? = some b1 ∧ content[176414]? = some b2 ∧
      10 * (b0 / 16) + b0 % 16 = m ∧
      10 * (b1 / 16) + b1 % 16 = s ∧
      10 * (b2 / 16) + b2 % 16 = f := by
  have hchunk : ((List.replicate 176400 0 ++ (List.range 150).flatMap fun j =>
      sector_at (advance^[j] ((m : ℚ), (s : ℚ), (f : ℚ)))).drop 176400).take 2352
      = sector (m / 10 * 16 + m % 10) (s / 10 * 16 + s % 10) (f / 10 * 16 + f % 10) := by
    have h := chunk_flatMap_range
      (fun j => sector_at (advance^[j] ((m : ℚ), (s : ℚ), (f : ℚ)))) 2352
      (fun j => sector_at_length _) 150 0 (by decide)
    rw [List.drop_left' (List.length_replicate _ _)]
    simpa [sector_at_natCast m s f hm hs hf] using h
  have hf12 := getElem?_of_chunk (List.replicate 176400 0 ++ (List.range 150).flatMap fun j =>
      sector_at (advance^[j] ((m : ℚ), (s : ℚ), (f : ℚ)))) 176400 2352 12 (by decide)
  have hf13 := getElem?_of_chunk (List.replicate 176400 0 ++ (List.range 150).flatMap fun j =>
      sector_at (advance^[j] ((m : ℚ), (s : ℚ), (f : ℚ)))) 176400 2352 13 (by decide)
  have hf14 := getElem?_of_chunk (List.replicate 176400 0 ++ (List.range 150).flatMap fun j =>
      sector_at (advance^[j] ((m : ℚ), (s : ℚ), (f : ℚ)))) 176400 2352 14 (by decide)
  rw [hchunk] at hf12 hf13 hf14
  have hfields := sector_fields (m / 10 * 16 + m % 10) (s / 10 * 16 + s % 10)
    (f / 10 * 16 + f % 10) (List.replicate 2336 0)
  refine ⟨_, _, m / 10 * 16 + m % 10, s / 10 * 16 + s % 10, f / 10 * 16 + f % 10,
    write_pregap_eq w path m s f (by omega) hs hf hopen hheap,
    store_files_self _ _ _, ?_, ?_, ?_, ?_, ?_, ?_⟩
  · exact hf12.symm.trans hfields.2.1
  · exact hf13.symm.trans hfields.2.2.1
  · exact hf14.symm.trans hfields.2.2.2.1
  · omega
  · omega
  · omega

theorem pregap_read_back_witness :
    ∃ (w1 : World) (content : List Nat) (b0 b1 b2 : ℕ),
      write_pregap blank "track.bin" ((45 : ℕ) : ℚ) ((9 : ℕ) : ℚ) ((74 : ℕ) : ℚ)
        = .returned w1 0 ∧
      w1.files "track.bin" = some content ∧
      content[176412]? = some b0 ∧ content[176413]? = some b1 ∧ content[176414]? = some b2 ∧
      10 * (b0 / 16) + b0 % 16 = 45 ∧
      10 * (b1 / 16) + b1 % 16 = 9 ∧
      10 * (b2 / 16) + b2 % 16 = 74 :=
  pregap_read_back blank "track.bin" 45 9 74 (by decide) (by decide) (by decide) rfl (by decide)

/-- C6: for 0 ≤ N ≤ 2^31 - 1, `write_null (path, N)` returns and leaves the
sink with exactly N bytes, all zero, whatever it held before; for N = 0 the
sink is left empty. -/
theorem write_null_zero_fill (w : World) (path : String) (N : ℕ) (hN : N ≤ 2 ^ 31 - 1)
    (hopen : w.openable path = true) (hheap : N ≤ w.heap) :
    ∃ (w1 : World) (content : List Nat),
      write_null w path N = .returned w1 0 ∧
      w1.files path = some content ∧
      content.length = N ∧ (∀ b ∈ content, b = 0) ∧ (N = 0 → content = []) := by
  refine ⟨_, _, write_null_eq w path N (by simpa [INT_MAX] using hN) hopen hheap,
    store_files_self _ _ _, List.length_replicate _ _, ?_, ?_⟩
  · intro b hb
    exact List.eq_of_mem_replicate hb
  · intro h0
    rw [h0]
    rfl

theorem write_null_zero_fill_witness :
    ∃ (w1 : World) (content : List Nat),
      write_null (blank.store "track.bin" [1, 2, 3]) "track.bin" ((0 : ℕ) : ℚ)
        = .returned w1 0 ∧
      w1.files "track.bin" = some content ∧
      content.length = 0 ∧ (∀ b ∈ content, b = 0) ∧ (0 = 0 → content = []) :=
  write_null_zero_fill (blank.store "track.bin" [1, 2, 3]) "track.bin" 0 (by decide) rfl
    (by decide)

/-- C7: `write -a path` leaves the sink with exactly 352800 bytes, all zero,
and 352800 = 150 * 2352. -/
theorem audio_pregap (strtod : String → ℚ) (w : World) (argv : List String) (path : String)
    (hmode : argv[1]? = some "-a") (hpath : argv[2]? = some path)
    (hopen : w.openable path = true) (hheap : 352800 ≤ w.heap) :
    ∃ (w1 : World) (content : List Nat),
      main strtod w argv = .returned w1 0 ∧
      w1.files path = some content ∧
      content.length = 352800 ∧ (∀ b ∈ content, b = 0) ∧ 352800 = 150 * 2352 := by
  have hlen : ¬ argv.length < 3 := by
    intro h
    have : argv[2]? = none := List.getElem?_eq_none (by omega)
    rw [this] at hpath
    exact Option.noConfusion hpath
  have hnull := write_null_eq w path 352800 (by simp [INT_MAX]) hopen hheap
  simp only [Nat.cast_ofNat] at hnull
  refine ⟨_, List.replicate 352800 0, ?_, store_files_self w path _,
    List.length_replicate _ _, fun b hb => List.eq_of_mem_replicate hb, by norm_num⟩
  simp only [main, hlen, if_false, hmode, hpath, if_true, hnull]

theorem audio_pregap_witness :
    ∃ (w1 : World) (content : List Nat),
      main (fun _ => 0) blank ["write", "-a", "track.bin"] = .returned w1 0 ∧
      w1.files "track.bin" = some content ∧
      content.length = 352800 ∧ (∀ b ∈ content, b = 0) ∧ 352800 = 150 * 2352 :=
  audio_pregap (fun _ => 0) blank ["write", "-a", "track.bin"] "track.bin" rfl rfl rfl
    (by decide)

end Write

namespace Read

/-- C8 (amended): for a file of length L < 2^53 and non-negative integers
size and skip with size ≤ 2^31 - 1, the test of line 36 computed in double
arithmetic holds exactly when L < size + skip, `read_hex` returns 0 if and
only if size + skip ≤ L, and otherwise exits with status 2 having printed
nothing on the standard output. -/
theorem read_hex_range_check (w : World) (path : String) (content : List Nat) (size skip : ℕ)
    (hopen : w.openable path = true) (hfile : w.files path = some content)
    (hlong : content.length < 2 ^ 53) (hsize : size ≤ 2 ^ 31 - 1) :
    (range_test_double (content.length : ℤ) size skip = true ↔ content.length < size + skip) ∧
    ((read_hex w path size skip).value = some 0 ↔ size + skip ≤ content.length) ∧
    (¬ size + skip ≤ content.length →
      (read_hex w path size skip).status = some 2 ∧
      (read_hex w path size skip).stdout = some w.stdout) := by
  have hexit : ¬ size + skip ≤ content.length →
      read_hex w path size skip = .exited { w with stderr := w.stderr
          ++ "size + skip value bigger than file size\n".toList } 2 := by
    intro h
    apply read_hex_range w path content _ _ hopen hfile
    have : content.length < size + skip := by omega
    exact_mod_cast this
  refine ⟨?_, ⟨?_, ?_⟩, ?_⟩
  · rw [range_test_double_eq _ _ _ hlong, decide_eq_true_iff]
    exact_mod_cast Iff.rfl
  · intro hv
    by_contra h
    rw [hexit h] at hv
    exact Option.noConfusion hv
  · intro h
    obtain ⟨w1, hw1⟩ := read_hex_returns w path content size skip hopen hfile
      (lt_trans hlong (by norm_num)) (by simpa [INT_MAX] using hsize) h
    rw [hw1]
    rfl
  · intro h
    rw [hexit h]
    exact ⟨rfl, rfl⟩

theorem read_hex_range_check_witness :
    (range_test_double (([171, 5] : List Nat).length : ℤ) ((1 : ℕ) : ℚ) ((1 : ℕ) : ℚ) = true
      ↔ ([171, 5] : List Nat).length < 1 + 1) ∧
    ((read_hex (blank.store "dump.bin" [171, 5]) "dump.bin" ((1 : ℕ) : ℚ) ((1 : ℕ) : ℚ)).value
        = some 0 ↔ 1 + 1 ≤ [171, 5].length) ∧
    (¬ 1 + 1 ≤ [171, 5].length →
      (read_hex (blank.store "dump.bin" [171, 5]) "dump.bin" ((1 : ℕ) : ℚ) ((1 : ℕ) : ℚ)).status
        = some 2 ∧
      (read_hex (blank.store "dump.bin" [171, 5]) "dump.bin" ((1 : ℕ) : ℚ) ((1 : ℕ) : ℚ)).stdout
        = some (blank.store "dump.bin" [171, 5]).stdout) :=
  read_hex_range_check (blank.store "dump.bin" [171, 5]) "dump.bin" [171, 5] 1 1 rfl
    (store_files_self _ _ _) (by decide) (by decide)

/-- C8 as stated fails: with size = 2^31, skip = 0 and a file of 2^31 bytes,
size + skip ≤ L holds but `read_hex` does not return 0 (the `int` loop counter
overflows); and with L = 2^53, size = 1, skip = 2^53 the test of line 36 is
false in double arithmetic, the sum being rounded to 2^53, although
size + skip exceeds L. -/
theorem read_hex_range_check_counterexample :
    2147483648 + 0 ≤ (List.replicate 2147483648 0).length ∧
    (read_hex (blank.store "dump.bin" (List.replicate 2147483648 0)) "dump.bin"
        ((2147483648 : ℕ) : ℚ) ((0 : ℕ) : ℚ)).value ≠ some 0 ∧
    range_test_double (2 ^ 53) 1 (2 ^ 53) = false ∧
    ((2 ^ 53 : ℤ) : ℚ) < 1 + 2 ^ 53 := by
  have hlen : (List.replicate 2147483648 0).length = 2147483648 := List.length_replicate _ _
  refine ⟨by rw [hlen], ?_, ?_, by norm_num⟩
  · rw [read_hex_overflow (blank.store "dump.bin" (List.replicate 2147483648 0)) "dump.bin"
      (List.replicate 2147483648 0) 2147483648 0 rfl (store_files_self _ _ _)
      (by rw [hlen]; norm_num) (by norm_num [INT_MAX]) (by rw [hlen])]
    exact fun h => Option.noConfusion h
  · have h1 : round_double (((2 ^ 53 : ℤ) : ℚ)) = 2 ^ 53 := by
      rw [round_double_intCast _ (by norm_num)]
      norm_num
    have h2 : round_double ((1 : ℚ) + 2 ^ 53) = 2 ^ 53 := by
      rw [add_comm]
      exact round_double_tie
    simp only [range_test_double, h1, h2, lt_irrefl, decide_False]

/-- C9 (amended): for size ≤ 2^31 - 1 and size + skip ≤ file length,
`read_hex` appends to the standard output, for the bytes at offsets
skip .. skip + size - 1 in order, the two-digit lowercase hexadecimal rendering
of the byte followed by one space (also after the last byte), and then a
newline. -/
theorem read_hex_output (w : World) (path : String) (content : List Nat) (size skip : ℕ)
    (hopen : w.openable path = true) (hfile : w.files path = some content)
    (hbytes : ∀ b ∈ content, b < 256) (hlong : content.length < 2 ^ 63)
    (hsize : size ≤ 2 ^ 31 - 1) (hrange : size + skip ≤ content.length) :
    (read_hex w path size skip).stdout
      = some (w.stdout
          ++ (((content.drop skip).take size).flatMap fun b => hex_pair b ++ [' '])
          ++ ['\n']) ∧
    ((content.drop skip).take size).length = size := by
  rw [read_hex_ok w path content size skip hopen hfile hbytes hlong
    (by simpa [INT_MAX] using hsize) hrange]
  refine ⟨?_, ?_⟩
  · simp [Result.stdout, Result.world, hex_dump_terminated]
  · rw [List.length_take, List.length_drop]
    omega

theorem read_hex_output_witness :
    (read_hex (blank.store "dump.bin" [171, 5, 255]) "dump.bin"
        ((2 : ℕ) : ℚ) ((1 : ℕ) : ℚ)).stdout
      = some ((blank.store "dump.bin" [171, 5, 255]).stdout
          ++ ((([171, 5, 255].drop 1).take 2).flatMap fun b => hex_pair b ++ [' '])
          ++ ['\n']) ∧
    (([171, 5, 255].drop 1).take 2).length = 2 :=
  read_hex_output (blank.store "dump.bin" [171, 5, 255]) "dump.bin" [171, 5, 255] 2 1 rfl
    (store_files_self _ _ _) (by decide) (by decide) (by decide) (by decide)

/-- C9 as stated fails: on the two-byte file `ab 05`, `read_hex` with size 2
and skip 0 prints a space after the last pair too, and with size = 2^31 on a
file of 2^31 bytes it prints no defined text. -/
theorem read_hex_output_counterexample :
    (read_hex (blank.store "dump.bin" [171, 5]) "dump.bin" ((2 : ℕ) : ℚ) ((0 : ℕ) : ℚ)).stdout
      = some "ab 05 \n".toList ∧
    hex_dump_separated [171, 5] = "ab 05\n".toList ∧
    (read_hex (blank.store "dump.bin" [171, 5]) "dump.bin" ((2 : ℕ) : ℚ) ((0 : ℕ) : ℚ)).stdout
      ≠ some (hex_dump_separated [171, 5]) ∧
    (read_hex (blank.store "dump.bin" (List.replicate 2147483648 0)) "dump.bin"
        ((2147483648 : ℕ) : ℚ) ((0 : ℕ) : ℚ)).stdout = none := by
  have h1 : (read_hex (blank.store "dump.bin" [171, 5]) "dump.bin"
      ((2 : ℕ) : ℚ) ((0 : ℕ) : ℚ)).stdout = some "ab 05 \n".toList := by
    rw [read_hex_ok (blank.store "dump.bin" [171, 5]) "dump.bin" [171, 5] 2 0 rfl
      (store_files_self _ _ _) (by decide) (by decide) (by decide) (by decide)]
    rfl
  refine ⟨h1, by decide, ?_, ?_⟩
  · rw [h1]
    decide
  · have hlen : (List.replicate 2147483648 0).length = 2147483648 := List.length_replicate _ _
    rw [read_hex_overflow (blank.store "dump.bin" (List.replicate 2147483648 0)) "dump.bin"
      (List.replicate 2147483648 0) 2147483648 0 rfl (store_files_self _ _ _)
      (by rw [hlen]; norm_num) (by norm_num [INT_MAX]) (by rw [hlen])]
    rfl

end Read

/-- C10 (the code misses the check): `write -d path` without the three timing
values passes the only argument check (`argc < 3`) and hands the null pointer
`argv[3]` to `strtod`; the run is undefined instead of an exit with status 1.
The same holds for `write -n path` without a size. -/
theorem write_main_missing_args (strtod : String → ℚ) (w : World) :
    Write.main strtod w ["write", "-d", "out.bin"] = .undefined ∧
    (Write.main strtod w ["write", "-d", "out.bin"]).status ≠ some 1 ∧
    Write.main strtod w ["write", "-d", "out.bin", "12", "34"] = .undefined ∧
    Write.main strtod w ["write", "-n", "out.bin"] = .undefined := by
  refine ⟨?_, ?_, ?_, ?_⟩
  · simp [Write.main, Write.arg]
  · simp [Write.main, Write.arg, Result.status]
  · simp [Write.main, Write.arg]
  · simp [Write.main, Write.arg]

namespace Write

/-- C12 (amended): for every minute m with -2^53 ≤ m < 2^53 - 1 and every
second s in [0,59], the double update agrees with the exact one along the 75
steps from (m, s, 74), and these give (m, s + 1, 74) when s < 59 and
(m + 1, 0, 74) when s = 59; after k steps with 0 < k < 75 the frame is k - 1,
so the frame 74 comes back only after the full cycle of 75 steps. -/
theorem advance_full_cycle (m s : ℤ) (hm : -2 ^ 53 ≤ m ∧ m < 2 ^ 53 - 1)
    (hs : 0 ≤ s ∧ s ≤ 59) :
    (∀ k : ℕ, k ≤ 75 →
      advance_double^[k] ((m : ℚ), (s : ℚ), 74) = advance^[k] ((m : ℚ), (s : ℚ), 74)) ∧
    advance^[75] ((m : ℚ), (s : ℚ), 74)
      = (if s = 59 then (((m + 1 : ℤ) : ℚ), 0, 74) else ((m : ℚ), ((s + 1 : ℤ) : ℚ), 74)) ∧
    ∀ k : ℕ, 0 < k → k < 75 →
      (advance^[k] ((m : ℚ), (s : ℚ), 74)).2.2 = (k : ℚ) - 1 ∧
      (advance^[k] ((m : ℚ), (s : ℚ), 74)).2.2 ≠ 74 := by
  have hcast : ((m : ℚ), (s : ℚ), (74 : ℚ)) = ((m : ℚ), (s : ℚ), ((74 : ℤ) : ℚ)) := by
    norm_num
  rw [hcast]
  refine ⟨?_, ?_, ?_⟩
  · intro k hk
    rw [← timecode_of_msf m s 74 hs (by decide)]
    apply iterate_advance_double
    · omega
    · have hk' : (k : ℤ) ≤ 75 := by exact_mod_cast hk
      omega
  · rw [iterate_advance_int m s 74 75 hs (by decide)]
    by_cases h : s = 59
    · have e1 : ((m * 60 + s) * 75 + 74 + (75 : ℕ)) / 4500 = m + 1 := by omega
      have e2 : ((m * 60 + s) * 75 + 74 + (75 : ℕ)) / 75 % 60 = 0 := by omega
      have e3 : ((m * 60 + s) * 75 + 74 + (75 : ℕ)) % 75 = 74 := by omega
      rw [if_pos h]
      simp only [timecode, e1, e2, e3]
      norm_num
    · have e1 : ((m * 60 + s) * 75 + 74 + (75 : ℕ)) / 4500 = m := by omega
      have e2 : ((m * 60 + s) * 75 + 74 + (75 : ℕ)) / 75 % 60 = s + 1 := by omega
      have e3 : ((m * 60 + s) * 75 + 74 + (75 : ℕ)) % 75 = 74 := by omega
      rw [if_neg h]
      simp only [timecode, e1, e2, e3]
      norm_num
  · intro k hk0 hk
    rw [iterate_advance_int m s 74 k hs (by decide)]
    have e3 : ((m * 60 + s) * 75 + 74 + (k : ℤ)) % 75 = (k : ℤ) - 1 := by omega
    simp only [timecode, e3]
    push_cast
    refine ⟨rfl, ?_⟩
    intro h
    have hk' : (k : ℚ) < 75 := by exact_mod_cast hk
    linarith

theorem advance_full_cycle_witness :
    (∀ k : ℕ, k ≤ 75 →
      advance_double^[k] (((7 : ℤ) : ℚ), ((59 : ℤ) : ℚ), 74)
        = advance^[k] (((7 : ℤ) : ℚ), ((59 : ℤ) : ℚ), 74)) ∧
    advance^[75] (((7 : ℤ) : ℚ), ((59 : ℤ) : ℚ), 74)
      = (if (59 : ℤ) = 59 then (((7 + 1 : ℤ) : ℚ), 0, 74)
          else (((7 : ℤ) : ℚ), ((59 + 1 : ℤ) : ℚ), 74)) ∧
    ∀ k : ℕ, 0 < k → k < 75 →
      (advance^[k] (((7 : ℤ) : ℚ), ((59 : ℤ) : ℚ), 74)).2.2 = (k : ℚ) - 1 ∧
      (advance^[k] (((7 : ℤ) : ℚ), ((59 : ℤ) : ℚ), 74)).2.2 ≠ 74 :=
  advance_full_cycle 7 59 (by decide) (by decide)

/-- C12 as stated fails: 75 steps from (0, 0, 74) give (0, 1, 74), not
(1, 0, 74); and from (2^53, 59, 74) the 75 steps of the double update give
(2^53, 0, 74), the carry into the minute being rounded away. -/
theorem advance_full_cycle_counterexample :
    advance^[75] ((0 : ℚ), (0 : ℚ), (74 : ℚ)) = ((0 : ℚ), (1 : ℚ), (74 : ℚ)) ∧
    advance^[75] ((0 : ℚ), (0 : ℚ), (74 : ℚ)) ≠ ((0 + 1 : ℚ), (0 : ℚ), (74 : ℚ)) ∧
    advance_double^[75] ((0 : ℚ), (0 : ℚ), (74 : ℚ)) = ((0 : ℚ), (1 : ℚ), (74 : ℚ)) ∧
    advance_double^[75] ((2 : ℚ) ^ 53, (59 : ℚ), (74 : ℚ))
      = ((2 : ℚ) ^ 53, (0 : ℚ), (74 : ℚ)) := by
  have hc : ((0 : ℚ), (0 : ℚ), (74 : ℚ)) = (((0 : ℤ) : ℚ), ((0 : ℤ) : ℚ), ((74 : ℤ) : ℚ)) := by
    norm_num
  have e : timecode (((0 : ℤ) * 60 + 0) * 75 + 74 + ((75 : ℕ) : ℤ))
      = ((0 : ℚ), (1 : ℚ), (74 : ℚ)) := by
    norm_num [timecode]
  have h : advance^[75] ((0 : ℚ), (0 : ℚ), (74 : ℚ)) = ((0 : ℚ), (1 : ℚ), (74 : ℚ)) := by
    rw [hc, iterate_advance_int 0 0 74 75 (by decide) (by decide), e]
  have hd : advance_double^[75] ((0 : ℚ), (0 : ℚ), (74 : ℚ))
      = advance^[75] ((0 : ℚ), (0 : ℚ), (74 : ℚ)) := by
    rw [hc, ← timecode_of_msf 0 0 74 (by decide) (by decide)]
    exact iterate_advance_double _ 75 (by norm_num) (by norm_num)
  refine ⟨h, ?_, hd.trans h, ?_⟩
  · rw [h]
    intro h1
    have h2 := congrArg Prod.fst h1
    norm_num at h2
  · rw [show (75 : ℕ) = 74 + 1 from rfl, Function.iterate_succ_apply, advance_double_carry]
    have h3 := iterate_advance_double_no_carry ((2 : ℚ) ^ 53) 0 (by decide) 74 (le_refl _)
    have e0 : ((0 : ℤ) : ℚ) = 0 := Int.cast_zero
    have e74 : ((74 : ℕ) : ℚ) = 74 := by norm_num
    rw [e0, e74] at h3
    exact h3

/-- C13 (amended): on integers m, s, f of magnitude below 2^53 the timecode
update of `write_pregap`, in double arithmetic as in exact arithmetic, is the
function `advance` of the specification: f' = f + 1; if f' > 74 then f' = 0
and s' = s + 1 else s' = s; if s' > 59 then s' = 0 and m' = m + 1 else
m' = m.  It maps (0,0,74) to (0,1,0) and (0,59,74) to (1,0,0), and for
f < 74 and s ≤ 59 only the frame changes. -/
theorem advance_refines_spec (m s f : ℤ) (hm : -2 ^ 53 ≤ m ∧ m < 2 ^ 53)
    (hs : -2 ^ 53 ≤ s ∧ s < 2 ^ 53) (hf : -2 ^ 53 ≤ f ∧ f < 2 ^ 53) :
    advance_double ((m : ℚ), (s : ℚ), (f : ℚ)) = advance ((m : ℚ), (s : ℚ), (f : ℚ)) ∧
    advance ((m : ℚ), (s : ℚ), (f : ℚ))
      = (((advance_spec (m, s, f)).1 : ℚ), ((advance_spec (m, s, f)).2.1 : ℚ),
          ((advance_spec (m, s, f)).2.2 : ℚ)) ∧
    advance ((0 : ℚ), (0 : ℚ), (74 : ℚ)) = ((0 : ℚ), (1 : ℚ), (0 : ℚ)) ∧
    advance ((0 : ℚ), (59 : ℚ), (74 : ℚ)) = ((1 : ℚ), (0 : ℚ), (0 : ℚ)) ∧
    advance_double ((0 : ℚ), (0 : ℚ), (74 : ℚ)) = ((0 : ℚ), (1 : ℚ), (0 : ℚ)) ∧
    advance_double ((0 : ℚ), (59 : ℚ), (74 : ℚ)) = ((1 : ℚ), (0 : ℚ), (0 : ℚ)) ∧
    (f < 74 → s ≤ 59 → advance ((m : ℚ), (s : ℚ), (f : ℚ)) = ((m : ℚ), (s : ℚ), (f : ℚ) + 1)) := by
  have ha : advance ((0 : ℚ), (0 : ℚ), (74 : ℚ)) = ((0 : ℚ), (1 : ℚ), (0 : ℚ)) := by
    norm_num [advance]
  have hb : advance ((0 : ℚ), (59 : ℚ), (74 : ℚ)) = ((1 : ℚ), (0 : ℚ), (0 : ℚ)) := by
    norm_num [advance]
  have hda := advance_double_eq 0 0 74 (by norm_num) (by norm_num) (by norm_num)
  have hdb := advance_double_eq 0 59 74 (by norm_num) (by norm_num) (by norm_num)
  norm_num at hda hdb
  refine ⟨advance_double_eq m s f hm hs hf, advance_intCast m s f, ha, hb, hda.trans ha,
    hdb.trans hb, ?_⟩
  intro hf1 hs1
  rw [advance_intCast]
  have h1 : ¬ f + 1 > 74 := by omega
  have h2 : ¬ s > 59 := by omega
  simp [advance_spec, h1, h2]

theorem advance_refines_spec_witness :
    advance_double (((3 : ℤ) : ℚ), ((20 : ℤ) : ℚ), ((10 : ℤ) : ℚ))
      = advance (((3 : ℤ) : ℚ), ((20 : ℤ) : ℚ), ((10 : ℤ) : ℚ)) ∧
    advance (((3 : ℤ) : ℚ), ((20 : ℤ) : ℚ), ((10 : ℤ) : ℚ))
      = (((3 : ℤ) : ℚ), ((20 : ℤ) : ℚ), ((10 : ℤ) : ℚ) + 1) :=
  ⟨(advance_refines_spec 3 20 10 (by decide) (by decide) (by decide)).1,
    (advance_refines_spec 3 20 10 (by decide) (by decide) (by decide)).2.2.2.2.2.2
      (by decide) (by decide)⟩

/-- C13 as stated fails: at (0, 60, 0) the frame is below 74, yet the second
and the minute change as well; and at (2^53, 59, 74) the double update leaves
the minute at 2^53 where the function of the specification gives 2^53 + 1. -/
theorem advance_refines_spec_counterexample :
    advance ((0 : ℚ), (60 : ℚ), (0 : ℚ)) = ((1 : ℚ), (0 : ℚ), (1 : ℚ)) ∧
    advance ((0 : ℚ), (60 : ℚ), (0 : ℚ)) ≠ ((0 : ℚ), (60 : ℚ), (0 : ℚ) + 1) ∧
    advance_double ((0 : ℚ), (60 : ℚ), (0 : ℚ)) = ((1 : ℚ), (0 : ℚ), (1 : ℚ)) ∧
    advance_double ((2 : ℚ) ^ 53, (59 : ℚ), (74 : ℚ)) = ((2 : ℚ) ^ 53, (0 : ℚ), (0 : ℚ)) ∧
    advance_spec (2 ^ 53, 59, 74) = (2 ^ 53 + 1, 0, 0) := by
  have h : advance ((0 : ℚ), (60 : ℚ), (0 : ℚ)) = ((1 : ℚ), (0 : ℚ), (1 : ℚ)) := by
    norm_num [advance]
  have hd := advance_double_eq 0 60 0 (by norm_num) (by norm_num) (by norm_num)
  norm_num at hd
  refine ⟨h, ?_, hd.trans h, advance_double_carry, by decide⟩
  rw [h]
  intro h1
  have h2 := congrArg Prod.fst h1
  norm_num at h2

/-- C15: for v in [100,159] the byte `write_sector` computes has the high
nibble v / 10 ≥ 10, not a decimal digit (100 gives 0xA0), and nothing rejects
it: the data pregap started at (99, 59, 0) is written in full, 529200 bytes,
and the minute byte of its sectors k = 75..149 is 0xA0. -/
theorem minute_overflow_bcd (w : World) (path : String) (v : ℕ)
    (hv : 100 ≤ v ∧ v ≤ 159)
    (hopen : w.openable path = true) (hheap : 176400 ≤ w.heap) :
    (∃ b, bcd_byte (v : ℚ) = some b ∧ b / 16 = v / 10 ∧ 10 ≤ b / 16 ∧ b % 16 = v % 10) ∧
    bcd_byte (100 : ℚ) = some 0xA0 ∧
    ∃ (w1 : World) (content : List Nat),
      write_pregap w path 99 59 0 = .returned w1 0 ∧
      w1.files path = some content ∧
      content.length = 529200 ∧
      ∀ k, 75 ≤ k → k < 150 → content[176400 + k * 2352 + 12]? = some 0xA0 := by
  have hb : (v / 10 * 16 + v % 10) % 256 = v / 10 * 16 + v % 10 :=
    Nat.mod_eq_of_lt (by omega)
  refine ⟨⟨v / 10 * 16 + v % 10, ?_, ?_, ?_, ?_⟩, ?_, ?_⟩
  · rw [bcd_byte_natCast v (by omega), hb]
  · omega
  · omega
  · omega
  · have h := bcd_byte_natCast 100 (by decide)
    simpa using h
  · have hstart : ((99 : ℚ), (59 : ℚ), (0 : ℚ))
        = (((99 : ℕ) : ℚ), ((59 : ℕ) : ℚ), ((0 : ℕ) : ℚ)) := by norm_num
    have hk : ∀ k < 150, advance^[k] ((99 : ℚ), (59 : ℚ), (0 : ℚ))
        = timecode (449925 + k) := by
      intro k _
      rw [hstart, natCast_msf 99 59 0 (by decide) (by decide), iterate_advance_timecode]
      norm_num
    have henc : ∀ j < 150, Encodable (advance^[j] ((99 : ℚ), (59 : ℚ), (0 : ℚ))) := by
      intro j hj
      rw [hk j hj]
      apply encodable_timecode <;> omega
    refine ⟨_, _,
      write_pregap_eq_of_encodable w path ((99 : ℚ), (59 : ℚ), (0 : ℚ)) henc hopen hheap,
      store_files_self _ _ _, pregap_content_length _, ?_⟩
    intro k hk75 hk150
    rw [pregap_content_minute _ k hk150, hk k hk150]
    have hmin : (449925 + (k : ℤ)) / 4500 = 100 := by omega
    simp only [timecode, hmin]
    rw [bcd_byte_intCast 100 (by decide) (by decide)]
    rfl

theorem minute_overflow_bcd_witness :
    (∃ b, bcd_byte ((159 : ℕ) : ℚ) = some b ∧ b / 16 = 159 / 10 ∧ 10 ≤ b / 16 ∧
      b % 16 = 159 % 10) ∧
    bcd_byte (100 : ℚ) = some 0xA0 ∧
    ∃ (w1 : World) (content : List Nat),
      write_pregap blank "track.bin" 99 59 0 = .returned w1 0 ∧
      w1.files "track.bin" = some content ∧
      content.length = 529200 ∧
      ∀ k, 75 ≤ k → k < 150 → content[176400 + k * 2352 + 12]? = some 0xA0 :=
  minute_overflow_bcd blank "track.bin" 159 (by decide) rfl (by decide)

/-- C16: for v in [160,255] the 8-bit store wraps, and the byte computed for
v is the byte computed for v - 160 (160 gives 0x00, 255 gives 0x95); so
`write_sector` gives the same result for the field v and the field v - 160,
in each of the three positions. -/
theorem bcd_byte_wraps (v : ℕ) (hv : 160 ≤ v ∧ v ≤ 255) :
    bcd_byte (v : ℚ) = bcd_byte ((v : ℚ) - 160) ∧
    bcd_byte (v : ℚ) = some (v / 10 * 16 + v % 10 - 256) ∧
    (∀ (w : World) (path : String) (y z : ℚ),
      write_sector w path v y z = write_sector w path ((v : ℚ) - 160) y z ∧
      write_sector w path y v z = write_sector w path y ((v : ℚ) - 160) z ∧
      write_sector w path y z v = write_sector w path y z ((v : ℚ) - 160)) := by
  have hsub : (v : ℚ) - 160 = ((v - 160 : ℕ) : ℚ) := by
    rw [Nat.cast_sub hv.1]
    norm_num
  have h1 : bcd_byte (v : ℚ) = bcd_byte ((v : ℚ) - 160) := by
    rw [hsub, bcd_byte_natCast v (by omega), bcd_byte_natCast (v - 160) (by omega)]
    have e1 : (v - 160) / 10 = v / 10 - 16 := by omega
    have e2 : (v - 160) % 10 = v % 10 := by omega
    have e3 : 16 ≤ v / 10 := by omega
    have e4 : v / 10 ≤ 25 := by omega
    rw [e1, e2]
    generalize v / 10 = q at *
    generalize v % 10 = r at *
    exact congrArg some (by omega)
  refine ⟨h1, ?_, ?_⟩
  · rw [bcd_byte_natCast v (by omega)]
    have e3 : 16 ≤ v / 10 := by omega
    have e4 : v / 10 ≤ 25 := by omega
    have e5 : v % 10 ≤ 9 := by omega
    generalize v / 10 = q at *
    generalize v % 10 = r at *
    exact congrArg some (by omega)
  · intro w path y z
    exact ⟨write_sector_congr w path _ _ _ _ _ _ h1 rfl rfl,
      write_sector_congr w path _ _ _ _ _ _ rfl h1 rfl,
      write_sector_congr w path _ _ _ _ _ _ rfl rfl h1⟩

theorem bcd_byte_wraps_witness :
    (bcd_byte ((160 : ℕ) : ℚ) = some 0x00 ∧ bcd_byte ((255 : ℕ) : ℚ) = some 0x95) ∧
    bcd_byte ((255 : ℕ) : ℚ) = bcd_byte (((255 : ℕ) : ℚ) - 160) :=
  ⟨⟨(bcd_byte_wraps 160 (by decide)).2.1, (bcd_byte_wraps 255 (by decide)).2.1⟩,
    (bcd_byte_wraps 255 (by decide)).1⟩

/-- C18 (amended): for 0 ≤ size ≤ 2^31 - 1 the block of `write_null` holds
floor(size) bytes, the zeroing loop stores at every index i < size, and it
stores only at indices inside the block if and only if size is an integer.  For an integral size the loop completes; for
a non-integral size it stores at index floor(size), one past the end, which
is its last store, and the loop has no defined result. -/
theorem null_loop_in_bounds_iff (size : ℚ) (h0 : 0 ≤ size) (h1 : size ≤ 2 ^ 31 - 1) :
    to_size_t size = some ⌊size⌋.toNat ∧
    (∀ i : ℕ, i ∈ null_loop_stores size (INT_MAX + 1) 0 ↔ (i : ℚ) < size) ∧
    ((∀ i ∈ null_loop_stores size (INT_MAX + 1) 0, i < ⌊size⌋.toNat)
      ↔ ((⌊size⌋ : ℤ) : ℚ) = size) ∧
    (((⌊size⌋ : ℤ) : ℚ) = size →
      null_loop size (INT_MAX + 1) 0 (List.replicate ⌊size⌋.toNat 0)
        = some (List.replicate ⌊size⌋.toNat 0)) ∧
    (((⌊size⌋ : ℤ) : ℚ) ≠ size →
      ⌊size⌋.toNat ∈ null_loop_stores size (INT_MAX + 1) 0 ∧
      (∀ i ∈ null_loop_stores size (INT_MAX + 1) 0, i ≤ ⌊size⌋.toNat) ∧
      null_loop size (INT_MAX + 1) 0 (List.replicate ⌊size⌋.toNat 0) = none) := by
  have hmax : size ≤ (INT_MAX : ℚ) := by
    have : ((INT_MAX : ℕ) : ℚ) = 2 ^ 31 - 1 := by norm_num [INT_MAX]
    rw [this]
    exact h1
  have hcast := floor_toNat_cast size h0
  have hle : ((⌊size⌋.toNat : ℕ) : ℚ) ≤ size := by
    rw [hcast]
    exact Int.floor_le size
  have hlt : size < ((⌊size⌋.toNat : ℕ) : ℚ) + 1 := by
    rw [hcast]
    exact Int.lt_floor_add_one size
  have hn : ⌊size⌋.toNat ≤ INT_MAX := by
    have : ((⌊size⌋.toNat : ℕ) : ℚ) ≤ ((INT_MAX : ℕ) : ℚ) := le_trans hle hmax
    exact_mod_cast this
  have hmem := fun i => mem_null_loop_stores size hmax (INT_MAX + 1) 0 i (by omega)
  have hbelow : ∀ i : ℕ, (i : ℚ) < size → i ≤ ⌊size⌋.toNat := by
    intro i hi
    have : (i : ℚ) < ((⌊size⌋.toNat : ℕ) : ℚ) + 1 := lt_trans hi hlt
    have h2 : i < ⌊size⌋.toNat + 1 := by exact_mod_cast this
    omega
  refine ⟨to_size_t_floor size h0 (by linarith [show (2 : ℚ) ^ 31 - 1 < 2 ^ 64 by norm_num]),
    fun i => (hmem i).trans ⟨fun h => h.2, fun h => ⟨Nat.zero_le _, h⟩⟩, ⟨?_, ?_⟩, ?_, ?_⟩
  · intro hall
    by_contra hne
    have hstrict : ((⌊size⌋.toNat : ℕ) : ℚ) < size :=
      lt_of_le_of_ne hle (by rw [hcast]; exact hne)
    have := hall ⌊size⌋.toNat ((hmem _).mpr ⟨Nat.zero_le _, hstrict⟩)
    omega
  · intro heq i hi
    have hi1 := ((hmem i).mp hi).2
    rw [← heq, ← hcast] at hi1
    exact_mod_cast hi1
  · intro heq
    have hsz : size = ((⌊size⌋.toNat : ℕ) : ℚ) := by rw [hcast, heq]
    have h := null_loop_zeros ⌊size⌋.toNat hn (INT_MAX + 1) 0 (Nat.zero_le _) (by omega)
    rw [← hsz] at h
    exact h
  · intro hne
    have hstrict : ((⌊size⌋.toNat : ℕ) : ℚ) < size :=
      lt_of_le_of_ne hle (by rw [hcast]; exact hne)
    exact ⟨(hmem _).mpr ⟨Nat.zero_le _, hstrict⟩, fun i hi => hbelow i ((hmem i).mp hi).2,
      null_loop_out_of_bounds size _ hstrict hn (INT_MAX + 1) 0 (Nat.zero_le _) (by omega)⟩

theorem null_loop_in_bounds_iff_witness :
    to_size_t (5 / 2) = some ⌊(5 / 2 : ℚ)⌋.toNat ∧
    (∀ i : ℕ, i ∈ null_loop_stores (5 / 2) (INT_MAX + 1) 0 ↔ (i : ℚ) < 5 / 2) ∧
    ((∀ i ∈ null_loop_stores (5 / 2) (INT_MAX + 1) 0, i < ⌊(5 / 2 : ℚ)⌋.toNat)
      ↔ ((⌊(5 / 2 : ℚ)⌋ : ℤ) : ℚ) = 5 / 2) ∧
    (((⌊(5 / 2 : ℚ)⌋ : ℤ) : ℚ) = 5 / 2 →
      null_loop (5 / 2) (INT_MAX + 1) 0 (List.replicate ⌊(5 / 2 : ℚ)⌋.toNat 0)
        = some (List.replicate ⌊(5 / 2 : ℚ)⌋.toNat 0)) ∧
    (((⌊(5 / 2 : ℚ)⌋ : ℤ) : ℚ) ≠ 5 / 2 →
      ⌊(5 / 2 : ℚ)⌋.toNat ∈ null_loop_stores (5 / 2) (INT_MAX + 1) 0 ∧
      (∀ i ∈ null_loop_stores (5 / 2) (INT_MAX + 1) 0, i ≤ ⌊(5 / 2 : ℚ)⌋.toNat) ∧
      null_loop (5 / 2) (INT_MAX + 1) 0 (List.replicate ⌊(5 / 2 : ℚ)⌋.toNat 0) = none) :=
  null_loop_in_bounds_iff (5 / 2) (by norm_num) (by norm_num)

/-- C18 as stated fails: size = 2^31 + 1/2 is not an integer, yet every
store of the loop is at an index below floor(size) = 2^31, because the `int`
counter stops at 2^31 - 1; and for the integer size 2^31 the loop has no
defined result, the counter being incremented past `INT_MAX`. -/
theorem null_loop_in_bounds_iff_counterexample :
    (0 : ℚ) ≤ 4294967297 / 2 ∧
    ⌊(4294967297 / 2 : ℚ)⌋ = 2147483648 ∧
    ((⌊(4294967297 / 2 : ℚ)⌋ : ℤ) : ℚ) ≠ 4294967297 / 2 ∧
    (∀ i ∈ null_loop_stores (4294967297 / 2) (INT_MAX + 1) 0,
      i < ⌊(4294967297 / 2 : ℚ)⌋.toNat) ∧
    null_loop 2147483648 (INT_MAX + 1) 0 (List.replicate 2147483648 0) = none := by
  have hfloor : ⌊(4294967297 / 2 : ℚ)⌋ = 2147483648 := by
    rw [Int.floor_eq_iff]
    constructor <;> norm_num
  refine ⟨by norm_num, hfloor, ?_, ?_,
    null_loop_overflow 2147483648 (by norm_num [INT_MAX]) 2147483648 (by norm_num [INT_MAX])
      (INT_MAX + 1) 0 rfl⟩
  · rw [hfloor]
    norm_num
  · intro i hi
    have h := null_loop_stores_le _ _ 0 i (Nat.zero_le _) hi
    rw [hfloor]
    have : (2147483648 : ℤ).toNat = 2147483648 := rfl
    rw [this]
    simp only [INT_MAX] at h
    omega

/-- C20: when the mode is none of `-a`, `-d`, `-n`, `write mode path ...`
returns 0 and leaves the world as it was: no file is created, truncated or
appended to. -/
theorem main_other_mode (strtod : String → ℚ) (w : World) (argv : List String)
    (mode path : String) (hmode : argv[1]? = some mode) (hpath : argv[2]? = some path)
    (ha : mode ≠ "-a") (hd : mode ≠ "-d") (hn : mode ≠ "-n") :
    main strtod w argv = .returned w 0 ∧
    (main strtod w argv).sink path = w.files path := by
  have hlen : ¬ argv.length < 3 := by
    intro h
    have : argv[2]? = none := List.getElem?_eq_none (by omega)
    rw [this] at hpath
    exact Option.noConfusion hpath
  have h : main strtod w argv = .returned w 0 := by
    simp only [main, hlen, if_false, hmode, hpath, ha, hd, hn]
  exact ⟨h, by rw [h]; rfl⟩

theorem main_other_mode_witness :
    main (fun _ => 0) (blank.store "out.bin" [1, 2, 3]) ["write", "-x", "out.bin", "7"]
      = .returned (blank.store "out.bin" [1, 2, 3]) 0 ∧
    (main (fun _ => 0) (blank.store "out.bin" [1, 2, 3])
        ["write", "-x", "out.bin", "7"]).sink "out.bin"
      = (blank.store "out.bin" [1, 2, 3]).files "out.bin" :=
  main_other_mode (fun _ => 0) (blank.store "out.bin" [1, 2, 3])
    ["write", "-x", "out.bin", "7"] "-x" "out.bin" rfl rfl (by decide) (by decide) (by decide)

end Write

end Dcsdchk
